import Mathlib

/-!
Verification of the reactive UI runtime bundled in `src/bundle.js`
(the Svelte 3.38.3 runtime prologue of the quiz application).

The JavaScript runtime is shallowly embedded: each runtime function is
translated to an executable Lean definition over explicit state records.
Mutable module-level state (scheduler queues, flags, transition groups)
becomes fields of state records threaded through the functions; callbacks
are represented as first-order data interpreted by a small interpreter;
observable effects (DOM writes, callback invocations) are appended to an
event log.  JS numbers that the runtime only ever uses as 32-bit integers
are modelled as `Int` with explicit reduction modulo `2 ^ 32`.
-/

namespace Bundle

/-! ## JavaScript values

A first-order model of the JS values the runtime compares and stores in
reactive slots.  Object and function values are identified by an id
(reference identity); `NaN` is its own constructor since it is the one
number that is not strictly equal to itself. -/

inductive JSVal where
  | undef : JSVal
  | null : JSVal
  | bool (b : Bool) : JSVal
  | num (n : Int) : JSVal
  | nan : JSVal
  | str (s : String) : JSVal
  | obj (id : Nat) : JSVal
  | fn (id : Nat) : JSVal
  deriving DecidableEq, Repr

namespace JSVal

/-- JS strict equality `a === b` on the modelled values.  `NaN` is not
strictly equal to anything (itself included); objects and functions
compare by reference identity (their id). -/
def strictEq : JSVal → JSVal → Bool
  | .nan, _ => false
  | _, .nan => false
  | a, b => a == b

/-- The `typeof` operator as a string, as JS computes it (`typeof null` is
`"object"`). -/
def typeofStr : JSVal → String
  | .undef => "undefined"
  | .null => "object"
  | .bool _ => "boolean"
  | .num _ => "number"
  | .nan => "number"
  | .str _ => "string"
  | .obj _ => "object"
  | .fn _ => "function"

/-- JS truthiness (`ToBoolean`). -/
def truthy : JSVal → Bool
  | .undef => false
  | .null => false
  | .bool b => b
  | .num n => n != 0
  | .nan => false
  | .str s => s != ""
  | .obj _ => true
  | .fn _ => true

/-- Whether `a` is the `NaN` value. -/
def isNaN : JSVal → Bool
  | .nan => true
  | _ => false

/-- For any JS value, the self-comparison `x != x` (loose) holds exactly
when `x` is `NaN`; likewise `x == x` fails exactly for `NaN`.  The
runtime only uses loose equality in this self-comparison form, so it is
embedded through `isNaN`. -/
def selfNeq (a : JSVal) : Bool := a.isNaN

end JSVal

open JSVal

/-- Function `safe_not_equal(a, b)` from `src/bundle.js`:
`a != a ? b == b : a !== b || ((a && typeof a === 'object') || typeof a === 'function')`. -/
def safe_not_equal (a b : JSVal) : Bool :=
  if a.selfNeq then !b.selfNeq
  else !(a.strictEq b) || ((a.truthy && a.typeofStr == "object") || a.typeofStr == "function")

/-! ## DOM write helpers (`set_data`, `attr`)

Text and element nodes are modelled with just the state these helpers
read and write, plus counters of the DOM mutations they perform. -/

/-- A DOM text node: its `wholeText`/`data` content and a counter of the
writes performed on it. -/
structure TextNode where
  wholeText : String
  data : String
  writes : Nat
  deriving DecidableEq, Repr

/-- Function `set_data(text, data)` from `src/bundle.js`: after the `'' + data`
string coercion (inputs are modelled post-coercion), the node's `data`
is assigned only when it differs from the current `wholeText`. -/
def set_data (t : TextNode) (data : String) : TextNode :=
  if t.wholeText ≠ data then { t with data := data, writes := t.writes + 1 } else t

/-- A DOM element node: its attribute map plus counters of
`setAttribute` / `removeAttribute` calls performed on it. -/
structure ElemNode where
  attrs : List (String × String)
  sets : Nat
  removes : Nat
  deriving DecidableEq, Repr

/-- Method `node.getAttribute(name)`: `none` models the `null` returned for an
absent attribute. -/
def getAttribute (e : ElemNode) (name : String) : Option String :=
  (e.attrs.find? (fun kv => kv.1 == name)).map (·.2)

/-- Method `node.removeAttribute(name)`. -/
def removeAttribute (e : ElemNode) (name : String) : ElemNode :=
  { e with attrs := e.attrs.filter (fun kv => kv.1 ≠ name), removes := e.removes + 1 }

/-- Method `node.setAttribute(name, v)`. -/
def setAttribute (e : ElemNode) (name v : String) : ElemNode :=
  { e with attrs := (name, v) :: e.attrs.filter (fun kv => kv.1 ≠ name),
           sets := e.sets + 1 }

/-- Function `attr(node, attribute, value)` from `src/bundle.js`.  `value = none`
models a `null` or `undefined` computed value (the code's loose
`value == null` test is true exactly for those two); otherwise the
attribute is written only when the current value differs. -/
def attr (node : ElemNode) (name : String) (value : Option String) : ElemNode :=
  match value with
  | none => removeAttribute node name
  | some v => if getAttribute node name ≠ some v then setAttribute node name v else node

/-! ## Scheduler and dirty tracking

Model of the module-level scheduler state of `src/bundle.js`
(`dirty_components`, `binding_callbacks`, `render_callbacks`,
`flush_callbacks`, `update_scheduled`, `flushing`, `seen_callbacks`) and
of the per-component `$$` state that `make_dirty`, `update` and the
`$$invalidate` closure of `init` touch.

JS dirty bitmasks are arrays of numbers used as 31-bit chunks; writing
`arr[k] |= bit` beyond the array's length extends the array (the absent
entry reads as `undefined`, which `ToInt32` converts to `0`). -/

/-- Read `l[k]` as the JS bitwise operators would (`ToInt32(undefined) = 0`
for an absent entry). -/
def jsGetIdx (l : List Int) (k : Nat) : Int := l.getD k 0

/-- Write `l[k] := v` with JS array semantics: an out-of-range write
extends the array, the skipped entries reading back as `0` under
`ToInt32`. -/
def jsSetIdx (l : List Int) (k : Nat) (v : Int) : List Int :=
  if k < l.length then l.set k v
  else (l ++ List.replicate (k - l.length) 0) ++ [v]

/-- JS `a | b`: both operands pass through `ToInt32` (reduction modulo
`2 ^ 32`, then reinterpretation of the top bit as the sign), the bitwise
or is taken, and the result is again a signed 32-bit value. -/
def jsOr32 (a b : Int) : Int :=
  let a' := (a % (2 ^ 32 : Int)).toNat
  let b' := (b % (2 ^ 32 : Int)).toNat
  let r := a' ||| b'
  if r < 2 ^ 31 then (r : Int) else (r : Int) - 2 ^ 32

/-- Callbacks stored in the scheduler's queues, as first-order data with
decidable identity (the JS `Set` of seen render callbacks works by
function identity).  `inv c i` is a callback that calls the component's
`$$invalidate`-path into `make_dirty c i`; `idle id` is an inert
callback distinguished only by its identity. -/
inductive CB where
  | inv (c : Nat) (i : Nat) : CB
  | idle (id : Nat) : CB
  deriving DecidableEq, Repr

/-- Observable events of a scheduler run, in order. -/
inductive Event where
  /-- the component's own `$$.update()` function was invoked -/
  | updateFn (c : Nat) : Event
  /-- the fragment patch `$$.fragment.p($$.ctx, dirty)` was invoked with this dirty mask -/
  | patch (c : Nat) (dirty : List Int) : Event
  /-- a callback popped from `binding_callbacks` was invoked -/
  | bindingCbRun (cb : CB) : Event
  /-- a render callback was invoked (it was not in `seen_callbacks`) -/
  | renderCbRun (cb : CB) : Event
  /-- a callback popped from `flush_callbacks` was invoked -/
  | flushCbRun (cb : CB) : Event
  /-- the binding `$$.bound[i](value)` was invoked by the `$$invalidate` closure -/
  | boundCb (c : Nat) (i : Nat) (v : JSVal) : Event
  deriving DecidableEq, Repr

/-- The per-component `$$` state used by the scheduler paths under
study.  `fragment` records whether `$$.fragment` is non-null;
`updateCbs` is the effect of the component's `$$.update` function,
interpreted as callbacks; `ctx = none` models a null `$$.ctx`;
`bound.getD i false` records whether a two-way-binding callback is
registered for slot `i`; `ready` is the closure variable of `init` that
becomes true after the first synchronous update pass. -/
structure Comp where
  fragment : Bool
  dirty : List Int
  updateCbs : List CB
  before_update : List CB
  after_update : List CB
  ctx : Option (List JSVal)
  bound : List Bool
  skip_bound : Bool
  ready : Bool
  deriving DecidableEq, Repr

/-- The module-level scheduler state, with components stored by id and an
event log of the observable effects. -/
structure Sched where
  comps : List Comp
  dirty_components : List Nat
  binding_callbacks : List CB
  render_callbacks : List CB
  flush_callbacks : List CB
  update_scheduled : Bool
  flushing : Bool
  seen_callbacks : List CB
  log : List Event
  deriving DecidableEq, Repr

namespace Sched

def getComp (s : Sched) (c : Nat) : Comp :=
  s.comps.getD c ⟨false, [], [], [], [], none, [], false, false⟩

def setComp (s : Sched) (c : Nat) (k : Comp) : Sched :=
  { s with comps := s.comps.set c k }

def addLog (s : Sched) (e : Event) : Sched := { s with log := s.log ++ [e] }

end Sched

/-- Function `schedule_update()` from `src/bundle.js`: sets the flag at most once
per cycle.  The `resolved_promise.then(flush)` microtask enqueue is an
interaction with the host event loop, outside this synchronous model;
the flush it eventually performs is applied explicitly in the theorems. -/
def schedule_update (s : Sched) : Sched :=
  if !s.update_scheduled then { s with update_scheduled := true } else s

/-- Function `make_dirty(component, i)` from `src/bundle.js`: on the `-1` sentinel
the component is pushed on `dirty_components`, an update is scheduled
and the mask is cleared to zeros; then bit `i % 31` of word `i / 31` is
or-ed in ( `(i / 31) | 0` is `i / 31` for the natural `i`). -/
def make_dirty (c : Nat) (i : Nat) (s : Sched) : Sched :=
  let s1 :=
    if jsGetIdx (s.getComp c).dirty 0 = -1 then
      let s' := schedule_update { s with dirty_components := s.dirty_components ++ [c] }
      s'.setComp c { s'.getComp c with dirty := List.replicate (s'.getComp c).dirty.length 0 }
    else s
  s1.setComp c
    { s1.getComp c with
      dirty := jsSetIdx (s1.getComp c).dirty (i / 31)
        (jsOr32 (jsGetIdx (s1.getComp c).dirty (i / 31)) ((2 : Int) ^ (i % 31))) }

/-- Interpretation of a stored callback. -/
def runCB (cb : CB) (s : Sched) : Sched :=
  match cb with
  | .inv c i => make_dirty c i s
  | .idle _ => s

/-- Function `run_all(fns)`: invoke a list of callbacks in order. -/
def runAllCB (cbs : List CB) (s : Sched) : Sched := cbs.foldl (fun st cb => runCB cb st) s

/-- Function `update($$)` from `src/bundle.js`: when `$$.fragment` is not null,
run `$$.update()` and the `before_update` callbacks, capture and reset
the dirty mask (a fresh `[-1]`), patch the fragment with the captured
mask, and register the `after_update` callbacks as render callbacks. -/
def update (c : Nat) (s : Sched) : Sched :=
  if (s.getComp c).fragment then
    let s1 := runAllCB (s.getComp c).updateCbs (s.addLog (.updateFn c))
    let s2 := runAllCB (s1.getComp c).before_update s1
    let dirty := (s2.getComp c).dirty
    let s3 := s2.setComp c { s2.getComp c with dirty := [-1] }
    let s4 := s3.addLog (.patch c dirty)
    { s4 with render_callbacks := s4.render_callbacks ++ (s4.getComp c).after_update }
  else s

/-- The component-updating `for` loop of `flush()`:
`for (let i = 0; i < dirty_components.length; i += 1) update(dirty_components[i].$$)`.
The bound is re-read on every iteration, so components that become dirty
during the loop are updated in the same pass.  `fuel` only bounds the
iteration count; every theorem below supplies enough of it. -/
def drainComponents : Nat → Nat → Sched → Sched
  | 0, _, s => s
  | fuel + 1, i, s =>
    if h : i < s.dirty_components.length then
      drainComponents fuel (i + 1) (update (s.dirty_components.get ⟨i, h⟩) s)
    else s

/-- Loop `while (binding_callbacks.length) binding_callbacks.pop()();` of `flush()`. -/
def drainBindings : Nat → Sched → Sched
  | 0, s => s
  | fuel + 1, s =>
    match s.binding_callbacks.getLast? with
    | none => s
    | some cb =>
      drainBindings fuel
        (runCB cb (Sched.addLog { s with binding_callbacks := s.binding_callbacks.dropLast }
          (.bindingCbRun cb)))

/-- The render-callback `for` loop of `flush()`: each callback runs only
if it is not in `seen_callbacks`, and is added to the seen set just
before it is invoked. -/
def drainRender : Nat → Nat → Sched → Sched
  | 0, _, s => s
  | fuel + 1, i, s =>
    if h : i < s.render_callbacks.length then
      if s.seen_callbacks.contains (s.render_callbacks.get ⟨i, h⟩) then
        drainRender fuel (i + 1) s
      else
        drainRender fuel (i + 1)
          (runCB (s.render_callbacks.get ⟨i, h⟩)
            (Sched.addLog
              { s with
                  seen_callbacks := s.render_callbacks.get ⟨i, h⟩ :: s.seen_callbacks }
              (.renderCbRun (s.render_callbacks.get ⟨i, h⟩))))
    else s

/-- One pass of the `do { ... }` body of `flush()`. -/
def flushPass (fuel : Nat) (s : Sched) : Sched :=
  let s1 := drainComponents fuel 0 s
  let s2 := { s1 with dirty_components := [] }
  let s3 := drainBindings fuel s2
  let s4 := drainRender fuel 0 s3
  { s4 with render_callbacks := [] }

/-- The `do { ... } while (dirty_components.length)` loop of `flush()`. -/
def flushLoop (fuel : Nat) : Nat → Sched → Sched
  | 0, s => s
  | n + 1, s =>
    let s' := flushPass fuel s
    if s'.dirty_components.isEmpty then s' else flushLoop fuel n s'

/-- Loop `while (flush_callbacks.length) flush_callbacks.pop()();` of `flush()`. -/
def drainFlushCbs : Nat → Sched → Sched
  | 0, s => s
  | fuel + 1, s =>
    match s.flush_callbacks.getLast? with
    | none => s
    | some cb =>
      drainFlushCbs fuel
        (runCB cb (Sched.addLog { s with flush_callbacks := s.flush_callbacks.dropLast }
          (.flushCbRun cb)))

/-- Function `flush()` from `src/bundle.js`: reentrancy-guarded by `flushing`;
drains the do-while loop, then the flush callbacks, then clears
`update_scheduled`, `flushing` and `seen_callbacks`. -/
def flush (fuel : Nat) (s : Sched) : Sched :=
  if s.flushing then s
  else
    let s1 := flushLoop fuel fuel { s with flushing := true }
    let s2 := drainFlushCbs fuel s1
    { s2 with update_scheduled := false, flushing := false, seen_callbacks := [] }

/-- The `$$invalidate` closure created by `init` in `src/bundle.js`
(with `not_equal = safe_not_equal`, the comparator every component of
this bundle passes):
if `$$.ctx` is non-null and the old slot value is `safe_not_equal` to
the assigned new one, the registered binding callback runs unless
`$$.skip_bound` is set, and `make_dirty` runs only once `ready`. -/
def invalidate (c : Nat) (i : Nat) (v : JSVal) (s : Sched) : Sched :=
  match (s.getComp c).ctx with
  | none => s
  | some ctx =>
    let old := ctx.getD i .undef
    let s1 := s.setComp c { s.getComp c with ctx := some (ctx.set i v) }
    if safe_not_equal old v then
      let s2 :=
        if !(s1.getComp c).skip_bound && (s1.getComp c).bound.getD i false then
          s1.addLog (.boundCb c i v)
        else s1
      if (s2.getComp c).ready then make_dirty c i s2 else s2
    else s1

/-! ## Transition groups (`group_outros` / `transition_out` / `check_outros`)

Blocks are identified by id; `hasOutro` records whether the block has an
`o` method (`if (block && block.o)`; a null block takes the same no-op
branch).  The module-level `outros` variable starts out `undefined` and
holds a linked stack of `{r, c, p}` group records; `outroing` is the
module-level `Set` of blocks currently mid-outro.  Completion closures
pushed on `outros.c` are represented by the data they capture.  Accessing
`outros.c` or `outros.r` while `outros` is `undefined` is a JS
`TypeError`, modelled by an `Option` result. -/

structure Block where
  id : Nat
  hasOutro : Bool
  deriving DecidableEq, Repr

/-- The completion closure `transition_out` pushes on `outros.c`,
by the data it captures: the block, the `detach` flag and the optional
`callback`. -/
structure OC where
  block : Nat
  detach : Bool
  callback : Option Nat
  deriving DecidableEq, Repr

/-- The `outros` variable: `undef` is its initial `undefined` value, and
`group r c p` is a record `{r, c, p}` with parent `p`. -/
inductive Outros where
  | undef : Outros
  | group (r : Int) (c : List OC) (p : Outros) : Outros
  deriving DecidableEq, Repr

/-- Observable transition events. -/
inductive TEvent where
  /-- the outro hook `block.o(local)` was invoked -/
  | outroHook (b : Nat) : TEvent
  /-- the destroy `block.d(1)` was invoked by a completion closure -/
  | detached (b : Nat) : TEvent
  /-- the `callback()` of a completion closure was invoked -/
  | completeCb (id : Nat) : TEvent
  deriving DecidableEq, Repr

structure TransState where
  outroing : List Nat
  outros : Outros
  log : List TEvent
  deriving DecidableEq, Repr

/-- Function `group_outros()` from `src/bundle.js`: push a fresh
`{r: 0, c: [], p: outros}` record. -/
def group_outros (s : TransState) : TransState :=
  { s with outros := .group 0 [] s.outros }

/-- Function `transition_out(block, local, detach, callback)` from
`src/bundle.js`.  The `local` flag is only forwarded to `block.o`, which
is abstract here, so it does not appear.  `none` models the `TypeError`
raised when `outros` is still `undefined` (i.e. no `group_outros`
preceded). -/
def transition_out (b : Block) (detach : Bool) (callback : Option Nat)
    (s : TransState) : Option TransState :=
  if b.hasOutro then
    if s.outroing.contains b.id then some s
    else
      match s.outros with
      | .undef => none
      | .group r c p =>
        some { s with
          outroing := b.id :: s.outroing,
          outros := .group r (c ++ [⟨b.id, detach, callback⟩]) p,
          log := s.log ++ [.outroHook b.id] }
  else some s

/-- Run one completion closure:
`outroing.delete(block); if (callback) { if (detach) block.d(1); callback(); }`. -/
def runOC (oc : OC) (s : TransState) : TransState :=
  let s1 := { s with outroing := s.outroing.erase oc.block }
  match oc.callback with
  | none => s1
  | some cb =>
    let s2 := if oc.detach then { s1 with log := s1.log ++ [.detached oc.block] } else s1
    { s2 with log := s2.log ++ [.completeCb cb] }

/-- The events one completion closure appends to the log. -/
def ocEvents (oc : OC) : List TEvent :=
  match oc.callback with
  | none => []
  | some cb => (if oc.detach then [TEvent.detached oc.block] else []) ++ [.completeCb cb]

/-- Function `check_outros()` from `src/bundle.js`: if the current group's
remaining count is zero (`!outros.r`), run all its completion closures;
then pop to the parent group. -/
def check_outros (s : TransState) : Option TransState :=
  match s.outros with
  | .undef => none
  | .group r c p =>
    let s1 := if r = 0 then c.foldl (fun st oc => runOC oc st) s else s
    some { s1 with outros := p }

/-- The `r` field of the current group (used to state what
`transition_out` does and does not change). -/
def groupR : Outros → Option Int
  | .undef => none
  | .group r _ _ => some r

/-- The completion-closure list of the current group. -/
def groupC : Outros → Option (List OC)
  | .undef => none
  | .group _ c _ => some c

/-! ## Component lifecycle (`mount_component` / `destroy_component`)

`$$.on_destroy` is a mutable array that `mount_component`'s deferred
render callback captures by reference while `destroy_component` replaces
the field with `null`; to track that aliasing the arrays live in a small
heap and `on_destroy` stores an index into it.  Cleanup callbacks are
identified by id.  `$$.fragment` is `none` for `null`, `some false` for
the `false` placeholder of a DOM-less component and `some true` for a
real fragment (with `d` and `m` methods). -/

/-- An `on_mount` callback: its id, and the cleanup-function id it
returns, if the value it returns is a function (`filter(is_function)`
keeps only those). -/
structure MountCb where
  id : Nat
  cleanup : Option Nat
  deriving DecidableEq, Repr

inductive LEvent where
  /-- the fragment mount `$$.fragment.m(target, anchor)` ran -/
  | fragMount : LEvent
  /-- the fragment destroy `$$.fragment.d(detaching)` ran -/
  | fragDestroy (detaching : Bool) : LEvent
  /-- an `on_destroy` callback ran (via `run_all($$.on_destroy)`) -/
  | destroyCb (id : Nat) : LEvent
  /-- an `on_mount` callback ran -/
  | mountCb (id : Nat) : LEvent
  /-- a cleanup function ran via `run_all(new_on_destroy)` -/
  | cleanupRun (id : Nat) : LEvent
  deriving DecidableEq, Repr

/-- The `$$` fields of one component that `mount_component` and
`destroy_component` read or write. -/
structure LComp where
  fragment : Option Bool
  on_destroy : Option Nat
  on_mount : List MountCb
  ctx : List JSVal
  deriving DecidableEq, Repr

structure LState where
  heap : List (List Nat)
  comp : LComp
  log : List LEvent
  deriving DecidableEq, Repr

/-- Function `destroy_component(component, detaching)` from `src/bundle.js`: when
`$$.fragment` is not null, run the `on_destroy` callbacks, destroy a
real fragment, null out `$$.on_destroy` and `$$.fragment` (the heap
array itself survives, unreferenced), and reset `$$.ctx` to `[]`. -/
def destroy_component (detaching : Bool) (s : LState) : LState :=
  match s.comp.fragment with
  | none => s
  | some f =>
    let cbs := match s.comp.on_destroy with
      | none => []
      | some r => s.heap.getD r []
    let s1 := { s with log := s.log ++ cbs.map LEvent.destroyCb }
    let s2 := if f then { s1 with log := s1.log ++ [.fragDestroy detaching] } else s1
    { s2 with comp := { s2.comp with fragment := none, on_destroy := none, ctx := [] } }

/-- What the render callback registered by `mount_component` captures:
`const { fragment, on_mount, on_destroy, after_update } = component.$$`
destructures the *current* values, so the callback closes over the
`on_mount` array and the `on_destroy` array reference as they are at
mount time — not over the fields of `$$`. -/
structure MountRenderCb where
  on_mount : List MountCb
  on_destroy : Option Nat
  deriving DecidableEq, Repr

/-- Function `mount_component(component, target, anchor, customElement)` with
`customElement` false (the only form this bundle uses): mount the
fragment and register the deferred onMount render callback, returned
here as the data it captured (it is pushed on `render_callbacks` and run
by the next `flush`). -/
def mount_component (s : LState) : LState × MountRenderCb :=
  let s1 := if s.comp.fragment = some true then { s with log := s.log ++ [LEvent.fragMount] } else s
  (s1, ⟨s1.comp.on_mount, s1.comp.on_destroy⟩)

/-- Running the render callback registered by `mount_component`:
`new_on_destroy = on_mount.map(run).filter(is_function)`; then the
captured `on_destroy` array reference — always the (possibly orphaned)
mount-time array — receives the cleanups, the `run_all` branch firing
only if that captured reference itself was null; finally
`component.$$.on_mount = []`. -/
def runMountRenderCb (cb : MountRenderCb) (s : LState) : LState :=
  let s1 := { s with log := s.log ++ cb.on_mount.map (fun (m : MountCb) => LEvent.mountCb m.id) }
  let new_on_destroy := cb.on_mount.filterMap (fun (m : MountCb) => m.cleanup)
  match cb.on_destroy with
  | some r =>
    { s1 with heap := s1.heap.set r (s1.heap.getD r [] ++ new_on_destroy),
              comp := { s1.comp with on_mount := [] } }
  | none =>
    { s1 with log := s1.log ++ new_on_destroy.map LEvent.cleanupRun,
              comp := { s1.comp with on_mount := [] } }

/-- A `SvelteComponent` handle: `$destroy()` calls
`destroy_component(this, 1)` and then replaces `this.$destroy` with
`noop`, so later `$destroy()` calls hit the replaced method. -/
structure Handle where
  st : LState
  destroyIsNoop : Bool
  deriving DecidableEq, Repr

/-- Method `component.$destroy()` (dispatching through the possibly replaced
method). -/
def dollarDestroy (h : Handle) : Handle :=
  if h.destroyIsNoop then h
  else { st := destroy_component true h.st, destroyIsNoop := true }

/-! ## Claim-side value predicates -/

/-- Whether the value is an object reference (a non-null object value). -/
def isObjRef : JSVal → Bool
  | .obj _ => true
  | _ => false

/-- Whether the value is a function value. -/
def isFnVal : JSVal → Bool
  | .fn _ => true
  | _ => false

/-! ## C6: the change test -/

/-- C6: for all values `old` and `new`, `safe_not_equal` reports a change
exactly when `old !== new`, except that `NaN` compared against `NaN` is
never a change, and additionally any old value that is a non-null object
or a function is always reported as changed, even when `old === new`. -/
theorem C6_safe_not_equal_characterization (a b : JSVal) :
    safe_not_equal a b = true ↔
      ¬(a.isNaN = true ∧ b.isNaN = true) ∧
        (a.strictEq b = false ∨ isObjRef a = true ∨ isFnVal a = true) := by
  cases a <;> cases b <;>
    simp [safe_not_equal, JSVal.selfNeq, JSVal.isNaN, JSVal.strictEq, JSVal.truthy,
      JSVal.typeofStr, isObjRef, isFnVal]

/-! ## C3: the reentrancy guard of `flush` -/

/-- A scheduler state that is mid-flush, witnessing the guard below. -/
def exMidFlush : Sched :=
  { comps := [⟨true, [-1], [], [], [], none, [], false, true⟩],
    dirty_components := [0], binding_callbacks := [], render_callbacks := [.idle 4],
    flush_callbacks := [], update_scheduled := true, flushing := true,
    seen_callbacks := [], log := [] }

/-- C3: invoking `flush` while a flush is already in progress (the
`flushing` flag is set) returns immediately: the entire scheduler state
— every queue, every component, every flag, the seen set and the event
log — is left unchanged, so the drain body never runs overlapped with
itself. -/
theorem C3_flush_reentrancy_guard (fuel : Nat) (s : Sched) (h : s.flushing = true) :
    flush fuel s = s := by
  simp [flush, h]

/-- Witness for C3 at a concrete mid-flush state with a non-empty queue. -/
theorem C3_flush_reentrancy_guard_witness :
    exMidFlush.flushing = true ∧ flush 5 exMidFlush = exMidFlush :=
  ⟨rfl, C3_flush_reentrancy_guard 5 exMidFlush rfl⟩

/-! ## C8: patch idempotence of the DOM write helpers -/

/-- C8: patching with unchanged computed content leaves the DOM
untouched: `set_data` writes the text node's data only when the computed
string differs from the node's current `wholeText` (the node, counter
included, is returned unchanged when they are equal), and `attr` removes
the attribute when the computed value is null or undefined and otherwise
skips the `setAttribute` call when the current attribute value already
equals the computed one. -/
theorem C8_patch_idempotence :
    (∀ (t : TextNode) (d : String), t.wholeText = d → set_data t d = t) ∧
    (∀ (t : TextNode) (d : String), t.wholeText ≠ d →
      (set_data t d).data = d ∧ (set_data t d).writes = t.writes + 1) ∧
    (∀ (e : ElemNode) (name : String), attr e name none = removeAttribute e name) ∧
    (∀ (e : ElemNode) (name v : String), getAttribute e name = some v →
      attr e name (some v) = e) ∧
    (∀ (e : ElemNode) (name v : String), getAttribute e name ≠ some v →
      attr e name (some v) = setAttribute e name v) := by
  refine ⟨fun t d h => ?_, fun t d h => ?_, fun e name => rfl, fun e name v h => ?_,
    fun e name v h => ?_⟩ <;> simp [set_data, attr, h]

/-- Concrete example nodes for the C8 witness. -/
def exText : TextNode := ⟨"hello", "hello", 0⟩

def exElem : ElemNode := ⟨[("class", "on")], 0, 0⟩

def exClass : String := "class"

def exOn : String := "on"

/-- Witness for C8: the unchanged-content branches at concrete nodes. -/
theorem C8_patch_idempotence_witness :
    set_data exText exText.wholeText = exText ∧
    attr exElem exClass (some exOn) = exElem ∧
    attr exElem exOn none = removeAttribute exElem exOn :=
  ⟨C8_patch_idempotence.1 exText exText.wholeText rfl,
   C8_patch_idempotence.2.2.2.1 exElem exClass exOn rfl,
   C8_patch_idempotence.2.2.1 exElem exOn⟩

/-! ## C9: double destroy is a safe no-op -/

/-- C9: destroying a component twice is safe.  The second
`destroy_component` call on the same instance is a no-op (the state is
returned unchanged, so nothing is invoked again and nothing can throw),
because the first call nulls `$$.fragment` and `$$.on_destroy`; the
first call runs each `on_destroy` callback exactly once; and a second
`$destroy()` through the component handle is likewise a no-op since the
method was replaced by `noop`. -/
theorem C9_double_destroy_safe (s : LState) (d1 d2 : Bool) (f : Bool) (r : Nat)
    (hf : s.comp.fragment = some f) (hr : s.comp.on_destroy = some r) :
    destroy_component d2 (destroy_component d1 s) = destroy_component d1 s ∧
    (destroy_component d1 s).log =
      s.log ++ (s.heap.getD r []).map LEvent.destroyCb ++
        (if f then [LEvent.fragDestroy d1] else []) ∧
    (∀ h : Handle, dollarDestroy (dollarDestroy h) = dollarDestroy h) := by
  refine ⟨?_, ?_, fun h => ?_⟩
  · cases f <;> simp [destroy_component, hf, hr]
  · cases f <;> simp [destroy_component, hf, hr]
  · by_cases hn : h.destroyIsNoop <;> simp [dollarDestroy, hn]

/-- A live component about to be destroyed, for the C9 witness. -/
def exLive : LState :=
  { heap := [[3, 4]],
    comp := ⟨some true, some 0, [], [JSVal.num 1]⟩,
    log := [] }

/-- Witness for C9 at a concrete live component with two destroy
callbacks. -/
theorem C9_double_destroy_safe_witness :
    destroy_component false (destroy_component true exLive) = destroy_component true exLive ∧
    (destroy_component true exLive).log =
      [LEvent.destroyCb 3, LEvent.destroyCb 4, LEvent.fragDestroy true] := by
  have h := C9_double_destroy_safe exLive true false true 0 rfl rfl
  exact ⟨h.1, by simpa [exLive] using h.2.1⟩

/-! ## C5: transition groups

The registration branch of `transition_out` does append a completion
closure and mark the fragment as outroing, but it leaves the group's
remaining count `r` untouched: nothing in this bundle ever increments
`outros.r` (the count is written only by `group_outros`, as `0`), so the
claim's "increments the current group's remaining count" fails; the
counterexample below exhibits a registering call after which `r` is
still `0`.  Everything else in the claim holds and is proved in the
amended theorem. -/

/-- An initial transition state (no group open yet, `outros` is
`undefined`). -/
def exTrans : TransState := ⟨[], .undef, []⟩

/-- C5 counterexample: after `group_outros()`, a `transition_out` call
on a fragment with outro behavior takes the registering branch (the
fragment is marked outroing, a completion closure is appended, the outro
hook fires) and yet the group's remaining count is still `0`, not `1` as
the claim's "increments the current group's remaining count" requires. -/
theorem C5_remaining_count_not_incremented :
    transition_out ⟨0, true⟩ true (some 7) (group_outros exTrans) =
      some ⟨[0], Outros.group 0 [⟨0, true, some 7⟩] .undef, [TEvent.outroHook 0]⟩ := by
  decide

/-- Computing the log of running a list of completion closures. -/
theorem runOC_log (oc : OC) (s : TransState) : (runOC oc s).log = s.log ++ ocEvents oc := by
  cases hc : oc.callback <;> cases hd : oc.detach <;> simp [runOC, ocEvents, hc, hd]

theorem foldl_runOC_log (cs : List OC) (s : TransState) :
    (cs.foldl (fun st oc => runOC oc st) s).log = s.log ++ cs.flatMap ocEvents := by
  induction cs generalizing s with
  | nil => simp
  | cons oc cs ih => simp [ih, runOC_log]

theorem foldl_runOC_outros (cs : List OC) (s : TransState) :
    (cs.foldl (fun st oc => runOC oc st) s).outros = s.outros := by
  induction cs generalizing s with
  | nil => rfl
  | cons oc cs ih =>
    rw [List.foldl_cons, ih]
    cases hc : oc.callback <;> cases hd : oc.detach <;> simp [runOC, hc, hd]

/-- C5 (amended: `transition_out` leaves the remaining count unchanged
rather than incrementing it — nothing in this bundle increments
`outros.r`): `transition_out` on a fragment with no outro behavior is a
no-op; on a fragment already in the outroing set it returns immediately
without registering a second completion; otherwise it adds the fragment
to the outroing set, appends a completion closure to the current group
and invokes the fragment's outro hook, leaving `r` as it was; and when
the current group's remaining count is zero (as after `group_outros`
plus synchronously completing `transition_out` calls), `check_outros`
fires every registered completion callback exactly once, in
registration order, before returning, and restores the group pointer to
the parent. -/
theorem C5_transition_out_check_outros (s : TransState) (b : Block) (d : Bool)
    (cb : Option Nat) (r : Int) (c : List OC) (p : Outros) :
    (b.hasOutro = false → transition_out b d cb s = some s) ∧
    (b.hasOutro = true → s.outroing.contains b.id = true →
      transition_out b d cb s = some s) ∧
    (b.hasOutro = true → s.outroing.contains b.id = false → s.outros = .group r c p →
      transition_out b d cb s =
        some { outroing := b.id :: s.outroing,
               outros := .group r (c ++ [⟨b.id, d, cb⟩]) p,
               log := s.log ++ [.outroHook b.id] }) ∧
    (s.outros = .group 0 c p →
      (check_outros s).map (fun t => t.log) = some (s.log ++ c.flatMap ocEvents) ∧
      (check_outros s).map (fun t => t.outros) = some p) := by
  refine ⟨fun h => ?_, fun h hmem => ?_, fun h hmem hg => ?_, fun hg => ?_⟩
  · simp [transition_out, h]
  · have hm : b.id ∈ s.outroing := by simpa using hmem
    simp [transition_out, h, hm]
  · have hm : b.id ∉ s.outroing := by simpa using hmem
    simp [transition_out, h, hm, hg]
  · simp [check_outros, hg, foldl_runOC_log, foldl_runOC_outros]

/-- The state after `group_outros()` and two synchronous
`transition_out` registrations (fragments `0` and `1`, completion
callbacks `10` and `11`), as the claim's scenario produces it. -/
def exAfterTwo : TransState :=
  ⟨[1, 0], .group 0 [⟨0, true, some 10⟩, ⟨1, true, some 11⟩] .undef,
    [.outroHook 0, .outroHook 1]⟩

/-- Witness for C5: the registering branch and the synchronous group
resolution at concrete inputs — both completion callbacks fire exactly
once before `check_outros` returns and the group pointer is restored to
the parent (`undefined` at top level). -/
theorem C5_transition_out_check_outros_witness :
    transition_out ⟨1, true⟩ true (some 11)
        ⟨[0], .group 0 [⟨0, true, some 10⟩] .undef, [.outroHook 0]⟩ =
      some exAfterTwo ∧
    (check_outros exAfterTwo).map (fun t => t.log) =
      some [.outroHook 0, .outroHook 1, .detached 0, .completeCb 10,
            .detached 1, .completeCb 11] ∧
    (check_outros exAfterTwo).map (fun t => t.outros) = some .undef := by
  have h3 := (C5_transition_out_check_outros
    ⟨[0], .group 0 [⟨0, true, some 10⟩] .undef, [.outroHook 0]⟩
    ⟨1, true⟩ true (some 11) 0 [⟨0, true, some 10⟩] .undef).2.2.1 rfl (by decide) rfl
  have h4 := (C5_transition_out_check_outros exAfterTwo ⟨1, true⟩ true (some 11) 0
    [⟨0, true, some 10⟩, ⟨1, true, some 11⟩] .undef).2.2.2 rfl
  exact ⟨by simpa [exAfterTwo] using h3, by simpa [ocEvents] using h4.1, h4.2⟩

/-! ## Scheduler state lemmas -/

theorem Sched.getComp_setComp_self (s : Sched) (c : Nat) (k : Comp)
    (hc : c < s.comps.length) : (s.setComp c k).getComp c = k := by
  unfold Sched.getComp Sched.setComp
  rw [List.getD_eq_getElem?_getD, List.getElem?_set_self]
  · rfl
  · exact hc

theorem Sched.log_setComp (s : Sched) (c : Nat) (k : Comp) : (s.setComp c k).log = s.log := rfl

theorem Sched.dirty_components_setComp (s : Sched) (c : Nat) (k : Comp) :
    (s.setComp c k).dirty_components = s.dirty_components := rfl

theorem Sched.getComp_addLog (s : Sched) (e : Event) (c : Nat) :
    (s.addLog e).getComp c = s.getComp c := rfl

theorem Sched.log_addLog (s : Sched) (e : Event) : (s.addLog e).log = s.log ++ [e] := rfl

theorem Sched.dirty_components_addLog (s : Sched) (e : Event) :
    (s.addLog e).dirty_components = s.dirty_components := rfl

/-- Computing `make_dirty` never logs an event (its effects are on the
mask and the queue only). -/
theorem make_dirty_log (c i : Nat) (s : Sched) : (make_dirty c i s).log = s.log := by
  unfold make_dirty schedule_update
  dsimp only
  split
  · split <;> rfl
  · rfl

/-! ## C7: the `$$invalidate` change path

The claim omits the `$$.skip_bound` guard: when a change is detected the
binding callback runs only if `$$.skip_bound` is clear (the flag
`SvelteComponent.$set` raises around `$$set` precisely to suppress the
binding callbacks).  The counterexample exhibits a change-detecting
invalidate with a registered binding callback that is not invoked.  The
readiness half of the claim holds. -/

/-- The prefix of the `$$invalidate` closure before the readiness test:
the `$$.ctx[i] = value` slot assignment and, when a binding callback is
registered for the slot and `$$.skip_bound` is clear, its synchronous
invocation (`invalidate` is this followed, when `ready`, by
`make_dirty`). -/
def bindSlot (c i : Nat) (v : JSVal) (s : Sched) : Sched :=
  match (s.getComp c).ctx with
  | none => s
  | some ctx =>
    let s1 := s.setComp c { s.getComp c with ctx := some (ctx.set i v) }
    if !(s1.getComp c).skip_bound && (s1.getComp c).bound.getD i false then
      s1.addLog (.boundCb c i v)
    else s1

/-- A component whose slot 0 has a registered binding callback but whose
`skip_bound` flag is set (as during `$set`), slot value `0`, ready. -/
def exSkipBound : Sched :=
  { comps := [⟨true, [-1], [], [], [], some [JSVal.num 0], [true], true, true⟩],
    dirty_components := [], binding_callbacks := [], render_callbacks := [],
    flush_callbacks := [], update_scheduled := false, flushing := false,
    seen_callbacks := [], log := [] }

/-- C7 counterexample: the invalidate path detects a slot value change
(`safe_not_equal` holds) and a two-way-binding callback is registered
for the slot, yet no binding callback is invoked (the log stays empty),
because `$$.skip_bound` is set; the change path did run — the component
was marked dirty.  The claim's "synchronously invokes the registered
two-way-binding callback for that slot, whenever one is registered" is
therefore false as stated. -/
theorem C7_bound_callback_suppressed :
    safe_not_equal (([JSVal.num 0] : List JSVal).getD 0 .undef) (JSVal.num 1) = true ∧
    (exSkipBound.getComp 0).ctx = some [JSVal.num 0] ∧
    (exSkipBound.getComp 0).bound.getD 0 false = true ∧
    (invalidate 0 0 (JSVal.num 1) exSkipBound).dirty_components = [0] ∧
    (invalidate 0 0 (JSVal.num 1) exSkipBound).log = [] := by
  decide

/-- C7 (amended: the binding callback fires only when one is registered
*and* `$$.skip_bound` is clear): whenever the invalidate path detects a
slot value change per `safe_not_equal`, it performs the `bindSlot`
prefix — which synchronously invokes the registered binding callback
exactly when one is registered and `skip_bound` is not set, and marks
nothing dirty — and then calls `make_dirty` for the slot if and only if
the component has completed its first synchronous update (`ready`);
before readiness neither the dirty mask nor the scheduler queue
changes, and the whole call logs nothing beyond the binding callback. -/
theorem C7_invalidate_change_path (s : Sched) (c i : Nat) (v : JSVal) (K : Comp)
    (ctx : List JSVal) (hc : c < s.comps.length) (hK : s.getComp c = K)
    (hctx : K.ctx = some ctx)
    (hch : safe_not_equal (ctx.getD i .undef) v = true) :
    invalidate c i v s =
      (if K.ready = true then make_dirty c i (bindSlot c i v s)
       else bindSlot c i v s) ∧
    (bindSlot c i v s).log = s.log ++
      (if K.skip_bound = false ∧ K.bound.getD i false = true
       then [Event.boundCb c i v] else []) ∧
    (bindSlot c i v s).dirty_components = s.dirty_components ∧
    ((bindSlot c i v s).getComp c).dirty = K.dirty ∧
    (invalidate c i v s).log = (bindSlot c i v s).log := by
  have hset : ∀ K' : Comp, (s.setComp c K').getComp c = K' := fun K' =>
    Sched.getComp_setComp_self s c K' hc
  have hch' : safe_not_equal ((ctx[i]?).getD .undef) v = true := by
    simpa [List.getD] using hch
  cases hsb : K.skip_bound <;>
    cases hbd : (K.bound[i]?).getD false <;>
      cases hrd : K.ready <;>
        simp [invalidate, bindSlot, hK, hctx, hch, hch', hsb, hbd, hrd, make_dirty_log,
          hset, Sched.getComp_addLog, Sched.log_setComp, Sched.log_addLog,
          Sched.dirty_components_setComp, Sched.dirty_components_addLog]

/-- A ready component with a registered binding callback and
`skip_bound` clear. -/
def exBindReady : Sched :=
  { comps := [⟨true, [-1], [], [], [], some [JSVal.num 0], [true], false, true⟩],
    dirty_components := [], binding_callbacks := [], render_callbacks := [],
    flush_callbacks := [], update_scheduled := false, flushing := false,
    seen_callbacks := [], log := [] }

/-- Witness for C7 at a concrete ready component: the change invokes
the binding callback and hands the state to `make_dirty`. -/
theorem C7_invalidate_change_path_witness :
    invalidate 0 0 (JSVal.num 1) exBindReady
      = make_dirty 0 0 (bindSlot 0 0 (JSVal.num 1) exBindReady) ∧
    (bindSlot 0 0 (JSVal.num 1) exBindReady).log = [Event.boundCb 0 0 (JSVal.num 1)] := by
  have h := C7_invalidate_change_path exBindReady 0 0 (JSVal.num 1)
    ⟨true, [-1], [], [], [], some [JSVal.num 0], [true], false, true⟩ [JSVal.num 0]
    (by decide) rfl rfl (by decide)
  exact ⟨by simpa using h.1, by simpa using h.2.1⟩

/-! ## C1: coalescing of dirty marks

Spec-side description of the dirty mask `make_dirty` accumulates: the
bitwise union of the bits of the marked slots, one 31-bit word per
`dirty` array entry. -/

/-- The bit `make_dirty` sets for slot `i` inside its 31-bit word
(`1 << (i % 31)`). -/
def slotBit (i : Nat) : Nat := 2 ^ (i % 31)

/-- Number of 31-bit words the mask spans after marking the slots of
`L` (at least one: the initial `dirty` array `[-1]` has one entry). -/
def wordsLen (L : List Nat) : Nat := L.foldl (fun w i => max w (i / 31 + 1)) 1

/-- Word `k` of the bitwise union of the bits of the slots in `L`. -/
def wordOr (L : List Nat) (k : Nat) : Nat :=
  L.foldl (fun acc i => if i / 31 = k then acc ||| slotBit i else acc) 0

/-- The bitwise union of the bits of the marked slots, as a dirty mask
with one entry per 31-bit word. -/
def unionWords (L : List Nat) : List Int :=
  (List.range (wordsLen L)).map (fun k => ((wordOr L k : Nat) : Int))

theorem slotBit_lt (i : Nat) : slotBit i < 2 ^ 31 :=
  Nat.pow_lt_pow_right (by norm_num) (Nat.mod_lt _ (by norm_num))

theorem wordOr_lt (L : List Nat) (k : Nat) : wordOr L k < 2 ^ 31 := by
  have h : ∀ (M : List Nat) (acc : Nat), acc < 2 ^ 31 →
      M.foldl (fun acc i => if i / 31 = k then acc ||| slotBit i else acc) acc < 2 ^ 31 := by
    intro M
    induction M with
    | nil => intro acc hacc; simpa using hacc
    | cons x M ih =>
      intro acc hacc
      rw [List.foldl_cons]
      by_cases hx : x / 31 = k
      · simpa [hx] using ih _ (Nat.bitwise_lt_two_pow hacc (slotBit_lt x))
      · simpa [hx] using ih _ hacc
  exact h L 0 (by norm_num)

theorem foldl_max_facts (M : List Nat) (a : Nat) :
    a ≤ M.foldl (fun w i => max w (i / 31 + 1)) a ∧
      ∀ i ∈ M, i / 31 + 1 ≤ M.foldl (fun w i => max w (i / 31 + 1)) a := by
  induction M generalizing a with
  | nil => exact ⟨le_refl a, by simp⟩
  | cons x M ih =>
    rw [List.foldl_cons]
    refine ⟨le_trans (le_max_left _ _) (ih _).1, ?_⟩
    intro i hi
    rcases List.mem_cons.mp hi with h | h
    · subst h; exact le_trans (le_max_right _ _) (ih _).1
    · exact (ih _).2 i h

theorem wordsLen_pos (L : List Nat) : 1 ≤ wordsLen L := (foldl_max_facts L 1).1

theorem mem_lt_wordsLen (L : List Nat) : ∀ i ∈ L, i / 31 + 1 ≤ wordsLen L :=
  (foldl_max_facts L 1).2

theorem wordsLen_append (L : List Nat) (x : Nat) :
    wordsLen (L ++ [x]) = max (wordsLen L) (x / 31 + 1) := by
  unfold wordsLen
  rw [List.foldl_append]
  rfl

theorem wordOr_append (L : List Nat) (x k : Nat) :
    wordOr (L ++ [x]) k = if x / 31 = k then wordOr L k ||| slotBit x else wordOr L k := by
  unfold wordOr
  rw [List.foldl_append]
  rfl

theorem wordOr_of_wordsLen_le (L : List Nat) (k : Nat) (h : wordsLen L ≤ k) :
    wordOr L k = 0 := by
  have hne : ∀ i ∈ L, ¬(i / 31 = k) := by
    intro i hi
    have := mem_lt_wordsLen L i hi
    omega
  have hgen : ∀ (M : List Nat) (acc : Nat), (∀ i ∈ M, ¬(i / 31 = k)) →
      M.foldl (fun acc i => if i / 31 = k then acc ||| slotBit i else acc) acc = acc := by
    intro M
    induction M with
    | nil => intro acc _; rfl
    | cons x M ih =>
      intro acc hall
      rw [List.foldl_cons, if_neg (hall x (by simp))]
      exact ih _ fun i hi => hall i (by simp [hi])
  exact hgen L 0 hne

theorem length_unionWords (L : List Nat) : (unionWords L).length = wordsLen L := by
  simp [unionWords]

theorem jsGetIdx_unionWords (L : List Nat) (k : Nat) :
    jsGetIdx (unionWords L) k = ((wordOr L k : Nat) : Int) := by
  unfold jsGetIdx unionWords
  by_cases h : k < wordsLen L
  · rw [List.getD_eq_getElem?_getD]
    simp [List.getElem?_range, h]
  · rw [List.getD_eq_getElem?_getD, List.getElem?_eq_none (by simpa using le_of_not_lt h)]
    simp [wordOr_of_wordsLen_le L k (le_of_not_lt h)]

theorem jsGetIdx_unionWords_ne_neg_one (L : List Nat) :
    ¬ jsGetIdx (unionWords L) 0 = -1 := by
  rw [jsGetIdx_unionWords]
  omega

theorem jsOr32_ofNat (a b : Nat) (ha : a < 2 ^ 31) (hb : b < 2 ^ 31) :
    jsOr32 (a : Int) (b : Int) = ((a ||| b : Nat) : Int) := by
  unfold jsOr32
  have h1 : ((a : Int) % (2 ^ 32 : Int)).toNat = a := by omega
  have h2 : ((b : Int) % (2 ^ 32 : Int)).toNat = b := by omega
  have hr : a ||| b < 2 ^ 31 := Nat.bitwise_lt_two_pow ha hb
  simp only [h1, h2]
  rw [if_pos hr]

theorem length_jsSetIdx (l : List Int) (k : Nat) (v : Int) :
    (jsSetIdx l k v).length = max l.length (k + 1) := by
  unfold jsSetIdx
  split
  · simp; omega
  · simp; omega

theorem jsGetIdx_jsSetIdx_self (l : List Int) (k : Nat) (v : Int) :
    jsGetIdx (jsSetIdx l k v) k = v := by
  unfold jsGetIdx jsSetIdx
  split
  · rw [List.getD_eq_getElem?_getD, List.getElem?_set_self (by assumption)]
    rfl
  · rw [List.getD_eq_getElem?_getD, List.getElem?_append_right (by simp; omega)]
    have : k - (l ++ List.replicate (k - l.length) 0).length = 0 := by simp; omega
    rw [this]
    rfl

theorem jsGetIdx_jsSetIdx_ne (l : List Int) (k : Nat) (v : Int) (j : Nat) (h : j ≠ k) :
    jsGetIdx (jsSetIdx l k v) j = jsGetIdx l j := by
  unfold jsGetIdx jsSetIdx
  split
  · rw [List.getD_eq_getElem?_getD, List.getD_eq_getElem?_getD,
      List.getElem?_set_ne (fun hkj => h hkj.symm)]
  · rename_i hk
    rw [List.getD_eq_getElem?_getD, List.getD_eq_getElem?_getD]
    by_cases hj : j < l.length
    · rw [List.getElem?_append_left (by simp; omega), List.getElem?_append_left hj]
    · by_cases hj2 : j < l.length + (k - l.length)
      · have e1 : (l ++ List.replicate (k - l.length) 0)[j]? = some 0 := by
          rw [List.getElem?_append_right (by omega), List.getElem?_replicate,
            if_pos (by omega)]
        rw [List.getElem?_append_left (by simp; omega), e1,
          List.getElem?_eq_none (by omega)]
        rfl
      · rw [List.getElem?_eq_none (by simp; omega), List.getElem?_eq_none (by omega)]

theorem list_eq_of_jsGetIdx (a b : List Int) (hlen : a.length = b.length)
    (h : ∀ k, jsGetIdx a k = jsGetIdx b k) : a = b := by
  apply List.ext_getElem hlen
  intro k h1 h2
  have hk := h k
  unfold jsGetIdx at hk
  rwa [List.getD_eq_getElem a 0 h1, List.getD_eq_getElem b 0 h2] at hk

theorem cast_two_pow_mod (x : Nat) : ((2 : Int) ^ (x % 31)) = ((slotBit x : Nat) : Int) := by
  simp [slotBit]

theorem unionWords_singleton (x : Nat) :
    jsSetIdx [0] (x / 31) (jsOr32 (jsGetIdx [0] (x / 31)) ((2 : Int) ^ (x % 31)))
      = unionWords [x] := by
  have hg : jsGetIdx [0] (x / 31) = ((0 : Nat) : Int) := by
    cases hx : x / 31 <;> simp [jsGetIdx, List.getD]
  rw [hg, cast_two_pow_mod, jsOr32_ofNat 0 (slotBit x) (by norm_num) (slotBit_lt x)]
  apply list_eq_of_jsGetIdx
  · rw [length_jsSetIdx, length_unionWords]
    simp [wordsLen]
  · intro k
    by_cases hk : k = x / 31
    · subst hk
      rw [jsGetIdx_jsSetIdx_self, jsGetIdx_unionWords]
      simp [wordOr]
    · rw [jsGetIdx_jsSetIdx_ne _ _ _ _ hk, jsGetIdx_unionWords]
      have hg2 : jsGetIdx [0] k = ((0 : Nat) : Int) := by
        cases hx : k <;> simp [jsGetIdx, List.getD]
      rw [hg2]
      have hne : ¬(x / 31 = k) := fun h => hk h.symm
      simp [wordOr, hne]

theorem unionWords_append (L : List Nat) (x : Nat) :
    jsSetIdx (unionWords L) (x / 31)
        (jsOr32 (jsGetIdx (unionWords L) (x / 31)) ((2 : Int) ^ (x % 31)))
      = unionWords (L ++ [x]) := by
  rw [jsGetIdx_unionWords, cast_two_pow_mod,
    jsOr32_ofNat _ _ (wordOr_lt L (x / 31)) (slotBit_lt x)]
  apply list_eq_of_jsGetIdx
  · rw [length_jsSetIdx, length_unionWords, length_unionWords, wordsLen_append]
  · intro k
    by_cases hk : k = x / 31
    · subst hk
      rw [jsGetIdx_jsSetIdx_self, jsGetIdx_unionWords, wordOr_append]
      simp
    · have hne : ¬(x / 31 = k) := fun h => hk h.symm
      rw [jsGetIdx_jsSetIdx_ne _ _ _ _ hk, jsGetIdx_unionWords, jsGetIdx_unionWords,
        wordOr_append, if_neg hne]

/-- The C1 scenario scheduler state: one component, otherwise empty
queues, not flushing, empty log. -/
def oneCompState (K : Comp) (dc : List Nat) (us : Bool) : Sched :=
  ⟨[K], dc, [], [], [], us, false, [], []⟩

theorem make_dirty_oneComp_sentinel (x : Nat) (K : Comp) (dc : List Nat) (us : Bool)
    (hs : jsGetIdx K.dirty 0 = -1) :
    make_dirty 0 x (oneCompState K dc us) =
      oneCompState
        { K with
            dirty := jsSetIdx (List.replicate K.dirty.length 0) (x / 31)
              (jsOr32 (jsGetIdx (List.replicate K.dirty.length 0) (x / 31))
                ((2 : Int) ^ (x % 31))) }
        (dc ++ [0]) true := by
  cases us <;>
    simp [make_dirty, oneCompState, schedule_update, Sched.getComp, Sched.setComp, hs,
      List.getD]

theorem make_dirty_oneComp_nosentinel (x : Nat) (K : Comp) (dc : List Nat) (us : Bool)
    (hs : ¬ jsGetIdx K.dirty 0 = -1) :
    make_dirty 0 x (oneCompState K dc us) =
      oneCompState
        { K with
            dirty := jsSetIdx K.dirty (x / 31)
              (jsOr32 (jsGetIdx K.dirty (x / 31)) ((2 : Int) ^ (x % 31))) }
        dc us := by
  simp [make_dirty, oneCompState, Sched.getComp, Sched.setComp, hs, List.getD]

/-- Marking any non-empty list of slots dirty on a fresh component
(initial mask `[-1]`) pushes the component on `dirty_components` exactly
once, schedules exactly one update, and accumulates precisely the
bitwise union of the slots' bits in the mask. -/
theorem foldl_make_dirty_unionWords (L : List Nat) (K : Comp) (us : Bool)
    (hL : L ≠ []) (hdirty : K.dirty = [-1]) :
    L.foldl (fun st i => make_dirty 0 i st) (oneCompState K [] us)
      = oneCompState { K with dirty := unionWords L } [0] true := by
  induction L using List.reverseRecOn with
  | nil => exact absurd rfl hL
  | append_singleton M x ih =>
    rcases eq_or_ne M [] with hM | hM
    · subst hM
      simp only [List.nil_append, List.foldl_cons, List.foldl_nil]
      rw [make_dirty_oneComp_sentinel x K [] us (by rw [hdirty]; rfl)]
      rw [hdirty]
      simp only [List.length_cons, List.length_nil, Nat.zero_add, List.replicate_one,
        List.nil_append]
      rw [unionWords_singleton]
    · rw [List.foldl_append, ih hM]
      simp only [List.foldl_cons, List.foldl_nil]
      rw [make_dirty_oneComp_nosentinel x _ [0] true (jsGetIdx_unionWords_ne_neg_one M)]
      dsimp only
      rw [unionWords_append M x]

/-- A flush of a single dirty component with an inert update function
and no lifecycle callbacks: exactly one `update` and one `patch`, with
the accumulated mask, and the mask reset to a fresh `[-1]`. -/
theorem flush_oneComp (K : Comp) (us : Bool) (fuel : Nat) (hfuel : 2 ≤ fuel)
    (hfrag : K.fragment = true) (hupd : K.updateCbs = []) (hbef : K.before_update = [])
    (haft : K.after_update = []) :
    flush fuel (oneCompState K [0] us) =
      ⟨[{ K with dirty := [-1] }], [], [], [], [], false, false, [],
        [Event.updateFn 0, Event.patch 0 K.dirty]⟩ := by
  obtain ⟨f, rfl⟩ : ∃ f, fuel = f + 2 := ⟨fuel - 2, by omega⟩
  simp [flush, oneCompState, flushLoop, flushPass, drainComponents, drainBindings,
    drainRender, drainFlushCbs, update, runAllCB, Sched.getComp, Sched.setComp,
    Sched.addLog, hfrag, hupd, hbef, haft, List.getD]

/-- C1: marking any non-empty list of (distinct) slots dirty on a fresh
component within one synchronous turn (the fold of `make_dirty`), with
no further dirtying from callbacks (inert update function and empty
lifecycle callback lists), makes the subsequent flush invoke the
component's update function and its fragment's patch exactly once each
— the log of the whole flush is exactly one `updateFn` event followed by
one `patch` event — and the dirty bitmask passed to patch is the
bitwise union of the bits of the marked slots (`unionWords L`). -/
theorem C1_coalescing_single_update_patch (L : List Nat) (K : Comp) (us : Bool)
    (fuel : Nat) (hL : L ≠ []) (hnd : L.Nodup) (hfuel : 2 ≤ fuel)
    (hdirty : K.dirty = [-1]) (hfrag : K.fragment = true) (hupd : K.updateCbs = [])
    (hbef : K.before_update = []) (haft : K.after_update = []) :
    (flush fuel (L.foldl (fun st i => make_dirty 0 i st) (oneCompState K [] us))).log
      = [Event.updateFn 0, Event.patch 0 (unionWords L)] := by
  have h2 := flush_oneComp { K with dirty := unionWords L } true fuel hfuel hfrag hupd
    hbef haft
  rw [foldl_make_dirty_unionWords L K us hL hdirty, h2]

/-- The fresh ready component of the C1 witness. -/
def exC1K : Comp := ⟨true, [-1], [], [], [], some [], [], false, true⟩

/-- Witness for C1 at slots `[0, 1, 35]` (crossing a 31-bit word
boundary): one update, one patch, mask `[1 ||| 2, 2 ^ 4] = [3, 16]`. -/
theorem C1_coalescing_single_update_patch_witness :
    (flush 2 (([0, 1, 35] : List Nat).foldl (fun st i => make_dirty 0 i st)
        (oneCompState exC1K [] false))).log
      = [Event.updateFn 0, Event.patch 0 [3, 16]] := by
  have h := C1_coalescing_single_update_patch [0, 1, 35] exC1K false 2
    (by decide) (by decide) (by norm_num) rfl rfl rfl rfl rfl
  rw [h]
  decide

/-! ## C4: render callbacks fire at most once per outer flush

The seen set guards every render-callback invocation: a callback is
added to `seen_callbacks` just before it runs, the set only grows while
the do-while loop repeats, and it is cleared only in the final lines of
`flush`.  The count of `renderCbRun cb` events a flush can add is
therefore at most one, whatever the callbacks do (including marking
components dirty and forcing further passes). -/

/-- The number of times render callback `cb` has been invoked, read off
the event log. -/
def countR (cb : CB) (s : Sched) : Nat := s.log.count (Event.renderCbRun cb)

theorem make_dirty_seen (c i : Nat) (s : Sched) :
    (make_dirty c i s).seen_callbacks = s.seen_callbacks := by
  unfold make_dirty schedule_update
  dsimp only
  split
  · split <;> rfl
  · rfl

theorem runCB_log (cb : CB) (s : Sched) : (runCB cb s).log = s.log := by
  cases cb with
  | inv c i => exact make_dirty_log c i s
  | idle id => rfl

theorem runCB_seen (cb : CB) (s : Sched) :
    (runCB cb s).seen_callbacks = s.seen_callbacks := by
  cases cb with
  | inv c i => exact make_dirty_seen c i s
  | idle id => rfl

theorem runAllCB_log (cbs : List CB) (s : Sched) : (runAllCB cbs s).log = s.log := by
  induction cbs generalizing s with
  | nil => rfl
  | cons cb cbs ih => rw [runAllCB, List.foldl_cons, ← runAllCB, ih, runCB_log]

theorem runAllCB_seen (cbs : List CB) (s : Sched) :
    (runAllCB cbs s).seen_callbacks = s.seen_callbacks := by
  induction cbs generalizing s with
  | nil => rfl
  | cons cb cbs ih => rw [runAllCB, List.foldl_cons, ← runAllCB, ih, runCB_seen]

theorem update_countR (c : Nat) (cb : CB) (s : Sched) :
    countR cb (update c s) = countR cb s := by
  unfold update countR
  split
  · simp [runAllCB_log, Sched.addLog, Sched.log_setComp, List.count_append]
  · rfl

theorem update_seen (c : Nat) (s : Sched) :
    (update c s).seen_callbacks = s.seen_callbacks := by
  unfold update
  split
  · simp [runAllCB_seen, Sched.addLog, Sched.setComp]
  · rfl

theorem drainComponents_countR (fuel i : Nat) (cb : CB) (s : Sched) :
    countR cb (drainComponents fuel i s) = countR cb s := by
  induction fuel generalizing i s with
  | zero => rfl
  | succ fuel ih =>
    rw [drainComponents]
    split
    · rw [ih, update_countR]
    · rfl

theorem drainComponents_seen (fuel i : Nat) (s : Sched) :
    (drainComponents fuel i s).seen_callbacks = s.seen_callbacks := by
  induction fuel generalizing i s with
  | zero => rfl
  | succ fuel ih =>
    rw [drainComponents]
    split
    · rw [ih, update_seen]
    · rfl

theorem drainBindings_countR (fuel : Nat) (cb : CB) (s : Sched) :
    countR cb (drainBindings fuel s) = countR cb s := by
  induction fuel generalizing s with
  | zero => rfl
  | succ fuel ih =>
    rw [drainBindings]
    split
    · rfl
    · rw [ih]
      unfold countR
      rw [runCB_log]
      simp [Sched.addLog, List.count_append]

theorem drainBindings_seen (fuel : Nat) (s : Sched) :
    (drainBindings fuel s).seen_callbacks = s.seen_callbacks := by
  induction fuel generalizing s with
  | zero => rfl
  | succ fuel ih =>
    rw [drainBindings]
    split
    · rfl
    · rw [ih, runCB_seen]
      rfl

theorem drainFlushCbs_countR (fuel : Nat) (cb : CB) (s : Sched) :
    countR cb (drainFlushCbs fuel s) = countR cb s := by
  induction fuel generalizing s with
  | zero => rfl
  | succ fuel ih =>
    rw [drainFlushCbs]
    split
    · rfl
    · rw [ih]
      unfold countR
      rw [runCB_log]
      simp [Sched.addLog, List.count_append]

theorem drainFlushCbs_seen (fuel : Nat) (s : Sched) :
    (drainFlushCbs fuel s).seen_callbacks = s.seen_callbacks := by
  induction fuel generalizing s with
  | zero => rfl
  | succ fuel ih =>
    rw [drainFlushCbs]
    split
    · rfl
    · rw [ih, runCB_seen]
      rfl

/-- The master bound for the render-callback loop: the seen set only
grows, and the count of `cb` invocations can increase only if `cb` ends
up in the seen set, by at most one in total. -/
theorem drainRender_master (cb : CB) (fuel : Nat) : ∀ (i : Nat) (s : Sched),
    (∀ x ∈ s.seen_callbacks, x ∈ (drainRender fuel i s).seen_callbacks) ∧
    countR cb (drainRender fuel i s) + (if cb ∈ s.seen_callbacks then 1 else 0) ≤
      countR cb s + (if cb ∈ (drainRender fuel i s).seen_callbacks then 1 else 0) := by
  induction fuel with
  | zero => exact fun i s => ⟨fun x hx => hx, le_refl _⟩
  | succ fuel ih =>
    intro i s
    rw [drainRender]
    by_cases hin : i < s.render_callbacks.length
    · rw [dif_pos hin]
      by_cases hcon : s.seen_callbacks.contains (s.render_callbacks.get ⟨i, hin⟩) = true
      · rw [if_pos hcon]
        exact ih (i + 1) s
      · rw [if_neg hcon]
        have hns' : s.render_callbacks.get ⟨i, hin⟩ ∉ s.seen_callbacks := by
          simpa using hcon
        revert hns'
        generalize s.render_callbacks.get ⟨i, hin⟩ = cb'
        intro hns'
        have hseen' : (runCB cb'
            (Sched.addLog { s with seen_callbacks := cb' :: s.seen_callbacks }
              (.renderCbRun cb'))).seen_callbacks = cb' :: s.seen_callbacks := by
          rw [runCB_seen]
          rfl
        have hcount' : countR cb (runCB cb'
            (Sched.addLog { s with seen_callbacks := cb' :: s.seen_callbacks }
              (.renderCbRun cb'))) = countR cb s + (if cb' = cb then 1 else 0) := by
          unfold countR
          rw [runCB_log]
          show (s.log ++ [Event.renderCbRun cb']).count (Event.renderCbRun cb) = _
          simp [List.count_append, List.count_singleton']
        obtain ⟨ihmono, ihcount⟩ := ih (i + 1) (runCB cb'
          (Sched.addLog { s with seen_callbacks := cb' :: s.seen_callbacks }
            (.renderCbRun cb')))
        rw [hcount', hseen'] at ihcount
        refine ⟨fun x hx => ihmono x ?_, ?_⟩
        · rw [hseen']
          exact List.mem_cons_of_mem _ hx
        · by_cases heq : cb' = cb
          · subst heq
            rw [if_pos (List.mem_cons_self cb' s.seen_callbacks), if_pos rfl] at ihcount
            rw [if_neg hns']
            omega
          · rw [if_neg heq] at ihcount
            have h2 : (cb ∈ cb' :: s.seen_callbacks) ↔ cb ∈ s.seen_callbacks := by
              constructor
              · intro h
                rcases List.mem_cons.mp h with h | h
                · exact absurd h.symm heq
                · exact h
              · exact List.mem_cons_of_mem _
            by_cases hmem : cb ∈ s.seen_callbacks
            · rw [if_pos hmem]
              rw [if_pos (h2.mpr hmem)] at ihcount
              omega
            · rw [if_neg hmem]
              rw [if_neg (fun h => hmem (h2.mp h))] at ihcount
              omega
    · rw [dif_neg hin]
      exact ⟨fun x hx => hx, le_refl _⟩

theorem flushPass_master (cb : CB) (fuel : Nat) (s : Sched) :
    (∀ x ∈ s.seen_callbacks, x ∈ (flushPass fuel s).seen_callbacks) ∧
    countR cb (flushPass fuel s) + (if cb ∈ s.seen_callbacks then 1 else 0) ≤
      countR cb s + (if cb ∈ (flushPass fuel s).seen_callbacks then 1 else 0) := by
  unfold flushPass
  have h1 := drainComponents_seen fuel 0 s
  have h2 := drainComponents_countR fuel 0 cb s
  set s1 := drainComponents fuel 0 s
  set s2 : Sched := { s1 with dirty_components := [] } with hs2
  have h3 := drainBindings_seen fuel s2
  have h4 := drainBindings_countR fuel cb s2
  set s3 := drainBindings fuel s2
  obtain ⟨hmono, hcount⟩ := drainRender_master cb fuel 0 s3
  set s4 := drainRender fuel 0 s3
  have e1 : s2.seen_callbacks = s.seen_callbacks := by rw [hs2]; exact h1
  have e2 : countR cb s2 = countR cb s := by
    unfold countR at h2 ⊢
    rw [hs2]
    exact h2
  constructor
  · intro x hx
    exact hmono x (by rw [h3, e1]; exact hx)
  · have e3 : countR cb s3 = countR cb s := by rw [h4, e2]
    have e4 : s3.seen_callbacks = s.seen_callbacks := by rw [h3, e1]
    rw [e3, e4] at hcount
    exact hcount

theorem flushLoop_master (cb : CB) (fuel : Nat) : ∀ (n : Nat) (s : Sched),
    (∀ x ∈ s.seen_callbacks, x ∈ (flushLoop fuel n s).seen_callbacks) ∧
    countR cb (flushLoop fuel n s) + (if cb ∈ s.seen_callbacks then 1 else 0) ≤
      countR cb s + (if cb ∈ (flushLoop fuel n s).seen_callbacks then 1 else 0) := by
  intro n
  induction n with
  | zero => exact fun s => ⟨fun x hx => hx, le_refl _⟩
  | succ n ih =>
    intro s
    rw [flushLoop]
    obtain ⟨pmono, pcount⟩ := flushPass_master cb fuel s
    split
    · exact ⟨pmono, pcount⟩
    · obtain ⟨lmono, lcount⟩ := ih (flushPass fuel s)
      refine ⟨fun x hx => lmono x (pmono x hx), ?_⟩
      by_cases h0 : cb ∈ s.seen_callbacks <;>
        by_cases h1 : cb ∈ (flushPass fuel s).seen_callbacks <;>
          by_cases h2 : cb ∈ (flushLoop fuel n (flushPass fuel s)).seen_callbacks <;>
            simp [h0, h1, h2] at pcount lcount ⊢ <;> omega

/-- C4: within a single outer flush (which starts with an empty seen
set), each render-callback function — tracked by identity in
`seen_callbacks` — is invoked at most once, even when callbacks mark
components dirty and cause additional passes of the do-while loop; and
the seen set is cleared (only) when the outer flush completes. -/
theorem C4_render_callback_single_fire (fuel : Nat) (s : Sched) (cb : CB)
    (hseen : s.seen_callbacks = []) :
    (flush fuel s).log.count (Event.renderCbRun cb)
        ≤ s.log.count (Event.renderCbRun cb) + 1 ∧
    (flush fuel s).seen_callbacks = [] := by
  unfold flush
  split
  · rw [hseen]
    exact ⟨Nat.le_succ_of_le (le_refl _), rfl⟩
  · obtain ⟨lmono, lcount⟩ :=
      flushLoop_master cb fuel fuel { s with flushing := true }
    set s1 := flushLoop fuel fuel { s with flushing := true }
    have hc1 := drainFlushCbs_countR fuel cb s1
    constructor
    · have lc : countR cb s1 + (if cb ∈ s.seen_callbacks then 1 else 0) ≤
          countR cb s + (if cb ∈ s1.seen_callbacks then 1 else 0) := lcount
      rw [hseen, if_neg (List.not_mem_nil cb)] at lc
      have hle : countR cb s1 ≤ countR cb s + 1 := by
        by_cases h2 : cb ∈ s1.seen_callbacks
        · rw [if_pos h2] at lc
          omega
        · rw [if_neg h2] at lc
          omega
      calc (drainFlushCbs fuel s1).log.count (Event.renderCbRun cb)
          = countR cb s1 := hc1
        _ ≤ s.log.count (Event.renderCbRun cb) + 1 := hle
    · rfl

/-- The C4 scenario: a ready component already in the dirty queue whose
`after_update` callback re-marks slot 0 of the component dirty, forcing
a second drain pass. -/
def exC4 : Sched :=
  { comps := [⟨true, [1], [], [], [CB.inv 0 0], some [], [], false, true⟩],
    dirty_components := [0], binding_callbacks := [], render_callbacks := [],
    flush_callbacks := [], update_scheduled := true, flushing := false,
    seen_callbacks := [], log := [] }

/-- Witness for C4: in the self-redirtying scenario the flush runs two
full passes (two `updateFn`/`patch` pairs in the log) and still invokes
the render callback exactly once; the seen set ends empty. -/
theorem C4_render_callback_single_fire_witness :
    ((flush 5 exC4).log.count (Event.renderCbRun (CB.inv 0 0))
        ≤ exC4.log.count (Event.renderCbRun (CB.inv 0 0)) + 1 ∧
      (flush 5 exC4).seen_callbacks = []) ∧
    (flush 5 exC4).log =
      [Event.updateFn 0, Event.patch 0 [1], Event.renderCbRun (CB.inv 0 0),
        Event.updateFn 0, Event.patch 0 [1]] :=
  ⟨C4_render_callback_single_fire 5 exC4 (CB.inv 0 0) rfl, by decide⟩

/-! ## C10: cleanups of a component destroyed before its mount callback

The code's own comment intends the `run_all(new_on_destroy)` branch for
the "component was destroyed immediately" edge case, but the branch
tests the *captured* `on_destroy` array reference from the
destructuring, which is never null; when `destroy_component` has already
nulled `$$.on_destroy`, the cleanups are pushed into the orphaned
mount-time array and are never run.  The theorem below evaluates the
code on that scenario. -/

/-- A freshly mounted-but-not-yet-flushed component: a real fragment,
an empty `on_destroy` array in the heap, and one `onMount` callback
(id `5`) returning a cleanup function (id `9`). -/
def exMount : LState :=
  { heap := [[]], comp := ⟨some true, some 0, [⟨5, some 9⟩], []⟩, log := [] }

/-- C10: evaluating the code on the failing scenario — destroy the
component after `mount_component` but before its deferred render
callback runs.  The `on_mount` callback runs and returns cleanup `9`,
but no `cleanupRun 9` is ever logged: the cleanup is appended to the
orphaned heap array (`heap = [[9]]`) that the destroyed component no
longer references (`on_destroy = none`).  The claimed behavior — the
callback detects the nulled `on_destroy` list and runs the cleanups
immediately — does not occur, because the callback tests the captured
array reference, which is non-null. -/
theorem C10_cleanups_lost_on_early_destroy :
    runMountRenderCb (mount_component exMount).2
        (destroy_component true (mount_component exMount).1) =
      { heap := [[9]],
        comp := ⟨none, none, [], []⟩,
        log := [.fragMount, .fragDestroy true, .mountCb 5] } := by
  decide

/-! ## C2: hydration reconciliation (`upper_bound` / `init_hydrate`)

The DOM children of the hydration target are modelled by their
`claim_order` stamps (pairwise distinct by hypothesis, so a stamp
identifies its node).  The `m`/`p` arrays of the longest-increasing-
subsequence computation are `Int` lists (`Int32Array` in the source,
with the `-1` sentinel at `m[0]`); `insertBefore` moves a node already
in the sibling list.  The one-shot `hydrate_init` guard is about
repeated calls on one container and is not part of the reordering
algorithm modelled here. -/

/-- Function `upper_bound(low, high, key, value)` from `src/bundle.js`:
first index in `[low, high)` whose key exceeds `value` (`>> 1` on the
non-negative range is division by two). -/
def upper_bound (key : Nat → Nat) (value : Nat) (low high : Nat) : Nat :=
  if h : low < high then
    if key (low + (high - low) / 2) ≤ value then
      upper_bound key value (low + (high - low) / 2 + 1) high
    else upper_bound key value low (low + (high - low) / 2)
  else low
termination_by high - low
decreasing_by
  · omega
  · omega

/-- Value (claim order) of the child node at index `i`. -/
def val (c : List Nat) (i : Nat) : Nat := c.getD i 0

/-- The binary-search key of `init_hydrate`:
`idx => children[m[idx]].claim_order`. -/
def lisKey (c : List Nat) (m : List Int) (idx : Nat) : Nat :=
  c.getD (m.getD idx 0).toNat 0

/-- The state of the forward pass of `init_hydrate`: the `m` and `p`
arrays and the current longest length. -/
structure LisState where
  m : List Int
  p : List Int
  longest : Nat
  deriving DecidableEq, Repr

/-- One iteration of the forward `for` loop of `init_hydrate` at child
index `i`. -/
def lisStep (c : List Nat) (st : LisState) (i : Nat) : LisState :=
  let current := c.getD i 0
  let seqLen := upper_bound (lisKey c st.m) current 1 (st.longest + 1) - 1
  let p' := st.p.set i (st.m.getD seqLen 0 + 1)
  let newLen := seqLen + 1
  let m' := st.m.set newLen (i : Int)
  ⟨m', p', max newLen st.longest⟩

/-- The initial arrays: `m` is an `Int32Array(n + 1)` with `m[0] = -1`,
`p` an `Int32Array(n)` (zero-filled). -/
def lisInit (n : Nat) : LisState := ⟨-1 :: List.replicate n 0, List.replicate n 0, 0⟩

/-- The whole forward pass over the children. -/
def lisRun (c : List Nat) : LisState :=
  (List.range c.length).foldl (lisStep c) (lisInit c.length)

/-- The inner loop `for (; last >= cur; last--) toMove.push(children[last])`:
the children at indices `last, last - 1, …, cur`. -/
def pushDescending (c : List Nat) (cur : Nat) (last : Int) : List Nat :=
  if (cur : Int) ≤ last then c.getD last.toNat 0 :: pushDescending c cur (last - 1)
  else []
termination_by (last + 1 - cur).toNat
decreasing_by omega

/-- The backward chain walk
`for (cur = m[longest] + 1; cur != 0; cur = p[cur - 1])` collecting `lis`
and `toMove`.  The fuel only bounds the iteration count; the chain
strictly descends, so `n + 1` of it always suffices. -/
def extractLoop (c : List Nat) (p : List Int) :
    Nat → Nat → Int → List Nat → List Nat → List Nat × List Nat × Int
  | 0, _, last, lis, toMove => (lis, toMove, last)
  | fuel + 1, cur, last, lis, toMove =>
    if cur = 0 then (lis, toMove, last)
    else
      extractLoop c p fuel (p.getD (cur - 1) 0).toNat
        ((if (cur : Int) ≤ last then (cur : Int) - 1 else last) - 1)
        (lis ++ [c.getD (cur - 1) 0])
        (toMove ++ pushDescending c cur last)

/-- Insert `node` directly before the first occurrence of `a`
(appending at the end if `a` is absent — under the invariants of
`init_hydrate` the anchor is always present). -/
def insertBeforeList (l : List Nat) (node a : Nat) : List Nat :=
  match l with
  | [] => [node]
  | x :: xs => if x = a then node :: x :: xs else x :: insertBeforeList xs node a

/-- Method `target.insertBefore(node, anchor)` on the sibling list: the
node is first detached from its current position, then inserted before
the anchor (or appended when the anchor is `null`). -/
def insertBefore (dom : List Nat) (node : Nat) (anchor : Option Nat) : List Nat :=
  match anchor with
  | none => dom.erase node ++ [node]
  | some a => insertBeforeList (dom.erase node) node a

/-- The inner pointer advance of the final move loop:
`while (j < lis.length && toMove[i].claim_order >= lis[j].claim_order) j++`. -/
def advanceJ (lis : List Nat) (t : Nat) (j : Nat) : Nat :=
  if h : j < lis.length ∧ lis.getD j 0 ≤ t then advanceJ lis t (j + 1) else j
termination_by lis.length - j
decreasing_by omega

/-- The final move loop of `init_hydrate`: insert each `toMove` node
before the first `lis` node with a greater claim order (or at the end),
counting the `insertBefore` calls. -/
def moveLoop (lis : List Nat) : List Nat → Nat → List Nat → Nat → List Nat × Nat
  | [], _, dom, cnt => (dom, cnt)
  | t :: rest, j, dom, cnt =>
    moveLoop lis rest (advanceJ lis t j)
      (insertBefore dom t
        (if advanceJ lis t j < lis.length then some (lis.getD (advanceJ lis t j) 0)
         else none))
      (cnt + 1)

/-- The result of `init_hydrate`: the reordered sibling list, the number
of `insertBefore` calls performed, and the computed kept / moved node
lists. -/
structure HydrateResult where
  dom : List Nat
  inserts : Nat
  lis : List Nat
  toMove : List Nat
  deriving DecidableEq, Repr

/-- Function `init_hydrate(target)` from `src/bundle.js` on a target
whose children carry the given claim orders. -/
def init_hydrate (c : List Nat) : HydrateResult :=
  let st := lisRun c
  let ext := extractLoop c st.p (c.length + 1) (st.m.getD st.longest 0 + 1).toNat
    ((c.length : Int) - 1) [] []
  let lis2 := ext.1.reverse
  let toMove2 := (ext.2.1 ++ pushDescending c 0 ext.2.2).mergeSort (fun a b => a ≤ b)
  let res := moveLoop lis2 toMove2 0 c 0
  ⟨res.1, res.2, lis2, toMove2⟩

/-- The predecessor chain encoded in `p`, as a relation: `PChain p cur l`
says the walk `cur, p[cur-1], p[p[cur-1]-1], …` down to `0` visits
exactly the indices `l` (each entry is `cur - 1` for the `cur` at that
step). -/
inductive PChain (p : List Int) : Nat → List Nat → Prop where
  | zero : PChain p 0 []
  | step (cur : Nat) (rest : List Nat) (h : cur ≠ 0)
      (hrest : PChain p (p.getD (cur - 1) 0).toNat rest) :
      PChain p cur ((cur - 1) :: rest)

/-- A good predecessor chain for prefix `k`: the chain from `cur` has
length `len`, strictly descending indices below `k`, and strictly
descending values. -/
def GoodChain (c : List Nat) (p : List Int) (k cur len : Nat) : Prop :=
  ∃ ch : List Nat, PChain p cur ch ∧ ch.length = len ∧
    ch.Pairwise (· > ·) ∧ (∀ x ∈ ch, x < k) ∧ (ch.map (val c)).Pairwise (· > ·)

/-- The invariant of the forward pass after consuming the prefix
`c.take k`. -/
structure LisInv (c : List Nat) (k : Nat) (st : LisState) : Prop where
  mlen : st.m.length = c.length + 1
  plen : st.p.length = c.length
  m0 : st.m.getD 0 0 = -1
  longle : st.longest ≤ k
  mchain : ∀ j, 1 ≤ j → j ≤ st.longest →
    0 ≤ st.m.getD j 0 ∧ (st.m.getD j 0).toNat < k ∧
      GoodChain c st.p k ((st.m.getD j 0).toNat + 1) j
  tails : ∀ j j', 1 ≤ j → j < j' → j' ≤ st.longest →
    val c (st.m.getD j 0).toNat < val c (st.m.getD j' 0).toNat
  bound : ∀ l : List Nat, l ≠ [] → l.Pairwise (· < ·) → (∀ x ∈ l, x < k) →
    (l.map (val c)).Pairwise (· < ·) → ∀ i, l.getLast? = some i →
      l.length ≤ st.longest ∧ val c (st.m.getD l.length 0).toNat ≤ val c i

/-- Characterization of `upper_bound` on a downward-closed key
predicate (as produced by an increasing key): it returns the split
point `r` in `[low, high]` with every key in `[low, r)` at most `value`
and every key in `[r, high)` above it. -/
theorem upper_bound_spec (key : Nat → Nat) (value : Nat) : ∀ (low high : Nat),
    low ≤ high →
    (∀ j j', low ≤ j → j ≤ j' → j' < high → key j' ≤ value → key j ≤ value) →
    low ≤ upper_bound key value low high ∧ upper_bound key value low high ≤ high ∧
      (∀ j, low ≤ j → j < upper_bound key value low high → key j ≤ value) ∧
      (∀ j, upper_bound key value low high ≤ j → j < high → value < key j) := by
  intro low high hlh hmono
  rw [upper_bound]
  split
  · rename_i hlt
    split
    · rename_i hkey
      have hrec := upper_bound_spec key value (low + (high - low) / 2 + 1) high
        (by omega) (fun j j' hj hjj hjh hk => hmono j j' (by omega) hjj hjh hk)
      obtain ⟨h1, h2, h3, h4⟩ := hrec
      refine ⟨by omega, h2, ?_, h4⟩
      intro j hj hjr
      by_cases hjm : low + (high - low) / 2 + 1 ≤ j
      · exact h3 j hjm hjr
      · exact hmono j (low + (high - low) / 2) hj (by omega) (by omega) hkey
    · rename_i hkey
      have hrec := upper_bound_spec key value low (low + (high - low) / 2)
        (by omega) (fun j j' hj hjj hjh hk => hmono j j' hj hjj (by omega) hk)
      obtain ⟨h1, h2, h3, h4⟩ := hrec
      refine ⟨h1, by omega, h3, ?_⟩
      intro j hjr hjh
      by_cases hjm : j < low + (high - low) / 2
      · exact h4 j hjr hjm
      · by_contra hc
        push_neg at hc
        exact absurd (hmono (low + (high - low) / 2) j (by omega) (by omega) hjh hc)
          (by omega)
  · rename_i hge
    exact ⟨le_refl _, by omega, fun j hj hjr => by omega, fun j hjr hjh => by omega⟩
termination_by low high => high - low
decreasing_by
  · omega
  · omega

/-! Utility lemmas for the hydration proof. -/

theorem getD_set_self_int (l : List Int) (i : Nat) (v : Int) (h : i < l.length) :
    (l.set i v).getD i 0 = v := by
  rw [List.getD_eq_getElem?_getD, List.getElem?_set_self h]
  rfl

theorem getD_set_ne_int (l : List Int) (i : Nat) (v : Int) (j : Nat) (h : j ≠ i) :
    (l.set i v).getD j 0 = l.getD j 0 := by
  rw [List.getD_eq_getElem?_getD, List.getD_eq_getElem?_getD,
    List.getElem?_set_ne (fun hij => h hij.symm)]

theorem val_ne_of_ne (c : List Nat) (hnd : c.Nodup) {i j : Nat} (hi : i < c.length)
    (hj : j < c.length) (hij : i ≠ j) : val c i ≠ val c j := by
  unfold val
  rw [List.getD_eq_getElem c 0 hi, List.getD_eq_getElem c 0 hj]
  intro h
  have h2 : (⟨i, hi⟩ : Fin c.length) = ⟨j, hj⟩ :=
    List.nodup_iff_injective_get.mp hnd (by simpa using h)
  exact hij (by simpa using h2)

theorem getLast?_mem_self {l : List Nat} {a : Nat} (h : l.getLast? = some a) : a ∈ l := by
  have hx : a ∈ l.getLast? := by simp [h]
  obtain ⟨hne, heq⟩ := List.mem_getLast?_eq_getLast hx
  rw [heq]
  exact List.getLast_mem hne

/-- In a strictly descending list, every element is at most the head. -/
theorem pairwise_gt_le_head {a : Nat} {l : List Nat} (h : (a :: l).Pairwise (· > ·)) :
    ∀ x ∈ a :: l, x ≤ a := by
  intro x hx
  rcases List.mem_cons.mp hx with rfl | hx
  · exact le_refl x
  · exact le_of_lt ((List.pairwise_cons.mp h).1 x hx)

/-- In a strictly ascending list, every element is at most the last. -/
theorem pairwise_lt_le_getLast : ∀ {l : List Nat} {i : Nat},
    l.Pairwise (· < ·) → l.getLast? = some i → ∀ x ∈ l, x ≤ i := by
  intro l
  induction l with
  | nil => intro i _ h; simp at h
  | cons a l ih =>
    intro i hp hl x hx
    cases l with
    | nil =>
      simp at hl hx
      omega
    | cons b l' =>
      rw [List.getLast?_cons_cons] at hl
      rcases List.mem_cons.mp hx with rfl | hx
      · have hi : i ∈ b :: l' := getLast?_mem_self hl
        exact le_of_lt ((List.pairwise_cons.mp hp).1 i hi)
      · exact ih (List.pairwise_cons.mp hp).2 hl x hx

theorem pchain_head {p : List Int} {cur : Nat} {ch : List Nat} (h : PChain p cur ch)
    (hc : cur ≠ 0) : ch.head? = some (cur - 1) := by
  cases h with
  | zero => exact absurd rfl hc
  | step cur rest h hrest => rfl

theorem pchain_stable {p : List Int} {i : Nat} {v : Int} {cur : Nat} {ch : List Nat}
    (h : PChain p cur ch) (hlt : ∀ x ∈ ch, x < i) : PChain (p.set i v) cur ch := by
  induction h with
  | zero => exact .zero
  | step cur rest hc hrest ih =>
    refine PChain.step cur rest hc ?_
    have hne : cur - 1 ≠ i := by
      have := hlt (cur - 1) (by simp)
      omega
    rw [getD_set_ne_int p i v (cur - 1) hne]
    exact ih fun x hx => hlt x (by simp [hx])

theorem goodChain_mono_set (c : List Nat) (p : List Int) (k cur len i : Nat) (v : Int)
    (h : GoodChain c p k cur len) (hik : k ≤ i) : GoodChain c (p.set i v) (k + 1) cur len := by
  obtain ⟨ch, hpc, hlen, hidx, hlt, hval⟩ := h
  exact ⟨ch, pchain_stable hpc (fun x hx => lt_of_lt_of_le (hlt x hx) hik), hlen, hidx,
    fun x hx => Nat.lt_succ_of_lt (hlt x hx), hval⟩

theorem lisInv_init (c : List Nat) : LisInv c 0 (lisInit c.length) := by
  refine ⟨by simp [lisInit], by simp [lisInit], rfl, le_refl 0, ?_, ?_, ?_⟩
  · intro j h1 h2
    simp [lisInit] at h2
    omega
  · intro j j' h1 h2 h3
    simp [lisInit] at h3
    omega
  · intro l hne hp hlt hv i hlast
    exfalso
    obtain ⟨x, hx⟩ := List.exists_mem_of_ne_nil l hne
    exact absurd (hlt x hx) (by omega)

/-- A strictly increasing index list whose last element is `k` splits
as a prefix below `k` plus `[k]`. -/
theorem chain_split_last (l : List Nat) (k : Nat) (hne : l ≠ [])
    (hp : l.Pairwise (· < ·)) (hlast : l.getLast? = some k) :
    l = l.dropLast ++ [k] ∧ ∀ x ∈ l.dropLast, x < k := by
  have heql : l.getLast hne = k := by
    rw [List.getLast?_eq_getLast l hne] at hlast
    exact Option.some.inj hlast
  have hd : l.dropLast ++ [k] = l := by
    rw [← heql]
    exact List.dropLast_append_getLast hne
  refine ⟨hd.symm, ?_⟩
  intro x hx
  have hp2 : (l.dropLast ++ [k]).Pairwise (· < ·) := by
    rw [hd]
    exact hp
  exact (List.pairwise_append.mp hp2).2.2 x hx k (by simp)

/-- One step of the forward pass preserves the invariant. -/
theorem lisInv_step (c : List Nat) (hnd : c.Nodup) (k : Nat) (st : LisState)
    (inv : LisInv c k st) (hk : k < c.length) : LisInv c (k + 1) (lisStep c st k) := by
  obtain ⟨mlen, plen, m0, longle, mchain, tails, bound⟩ := inv
  have hmono : ∀ j j', 1 ≤ j → j ≤ j' → j' < st.longest + 1 →
      lisKey c st.m j' ≤ c.getD k 0 → lisKey c st.m j ≤ c.getD k 0 := by
    intro j j' h1 hjj hj' hkey
    rcases Nat.eq_or_lt_of_le hjj with rfl | hlt
    · exact hkey
    · exact le_of_lt (lt_of_lt_of_le (tails j j' h1 hlt (by omega)) hkey)
  obtain ⟨hr1, hr2, hA, hB⟩ := upper_bound_spec (lisKey c st.m) (c.getD k 0) 1
    (st.longest + 1) (by omega) hmono
  set r := upper_bound (lisKey c st.m) (c.getD k 0) 1 (st.longest + 1) with hrdef
  have hA' : ∀ j, 1 ≤ j → j < r → lisKey c st.m j < c.getD k 0 := by
    intro j h1 hj
    have hle := hA j h1 hj
    have hmj := mchain j h1 (by omega)
    have hne2 : val c (st.m.getD j 0).toNat ≠ val c k :=
      val_ne_of_ne c hnd (lt_trans hmj.2.1 hk) hk (by omega)
    have hne3 : lisKey c st.m j ≠ c.getD k 0 := hne2
    omega
  have hr0 : r - 1 + 1 = r := by omega
  have hstep : lisStep c st k =
      ⟨st.m.set r (k : Int), st.p.set k (st.m.getD (r - 1) 0 + 1), max r st.longest⟩ := by
    simp only [lisStep]
    rw [← hrdef, hr0]
  rw [hstep]
  have hrk : r ≤ k + 1 := by omega
  have hrm : r < st.m.length := by omega
  have hm'r : (st.m.set r (k : Int)).getD r 0 = (k : Int) := getD_set_self_int _ _ _ hrm
  have hm'ne : ∀ j, j ≠ r → (st.m.set r (k : Int)).getD j 0 = st.m.getD j 0 :=
    fun j hj => getD_set_ne_int _ _ _ _ hj
  have hkp : k < st.p.length := by omega
  have hp'k : (st.p.set k (st.m.getD (r - 1) 0 + 1)).getD k 0 = st.m.getD (r - 1) 0 + 1 :=
    getD_set_self_int _ _ _ hkp
  have hjle : ∀ j, j ≤ max r st.longest → j ≠ r → j ≤ st.longest := by
    intro j hj hjr
    rcases Nat.le_total r st.longest with h | h
    · rw [Nat.max_eq_right h] at hj
      exact hj
    · rw [Nat.max_eq_left h] at hj
      omega
  have htnk : ((k : Int)).toNat = k := rfl
  refine ⟨by simpa using mlen, by simpa using plen, ?_, ?_, ?_, ?_, ?_⟩
  · rw [hm'ne 0 (by omega)]
    exact m0
  · exact max_le (by omega) (by omega)
  · intro j h1 hj
    by_cases hjr : j = r
    · rw [hjr]
      refine ⟨by rw [hm'r]; omega, by rw [hm'r]; omega, ?_⟩
      have htn : (((st.m.set r (k : Int)).getD r 0).toNat + 1) = k + 1 := by
        rw [hm'r]
        omega
      rw [htn]
      by_cases hseq : r = 1
      · refine ⟨[k], ?_, by simp [hseq], by simp, ?_, by simp⟩
        · refine PChain.step (k + 1) [] (by omega) ?_
          have h0 : ((st.p.set k (st.m.getD (r - 1) 0 + 1)).getD (k + 1 - 1) 0).toNat = 0 := by
            have hz : r - 1 = 0 := by omega
            rw [show k + 1 - 1 = k from rfl, hp'k, hz, m0]
            rfl
          rw [h0]
          exact PChain.zero
        · intro x hx
          simp at hx
          omega
      · have hseq1 : 1 ≤ r - 1 := by omega
        have hseql : r - 1 ≤ st.longest := by omega
        obtain ⟨hge, hlt', hgc⟩ := mchain (r - 1) hseq1 hseql
        obtain ⟨ch, hpc, hlen, hidx, hbnd, hval⟩ := hgc
        have hpc' : PChain (st.p.set k (st.m.getD (r - 1) 0 + 1))
            ((st.m.getD (r - 1) 0).toNat + 1) ch := pchain_stable hpc hbnd
        cases ch with
        | nil =>
          simp at hlen
          omega
        | cons a ch' =>
          have ha : a = (st.m.getD (r - 1) 0).toNat := by
            have hh := pchain_head hpc (by omega)
            rw [List.head?_cons] at hh
            have hh2 := Option.some.inj hh
            omega
          refine ⟨k :: a :: ch', ?_, ?_, ?_, ?_, ?_⟩
          · refine PChain.step (k + 1) (a :: ch') (by omega) ?_
            have htn2 : ((st.p.set k (st.m.getD (r - 1) 0 + 1)).getD (k + 1 - 1) 0).toNat
                = (st.m.getD (r - 1) 0).toNat + 1 := by
              rw [show k + 1 - 1 = k from rfl, hp'k]
              omega
            rw [htn2]
            exact hpc'
          · simp at hlen ⊢
            omega
          · rw [List.pairwise_cons]
            exact ⟨fun x hx => hbnd x hx, hidx⟩
          · intro x hx
            rcases List.mem_cons.mp hx with rfl | hx
            · omega
            · exact Nat.lt_succ_of_lt (hbnd x hx)
          · rw [List.map_cons, List.pairwise_cons]
            refine ⟨?_, hval⟩
            intro y hy
            have hval' : (val c a :: List.map (val c) ch').Pairwise (· > ·) := by
              rw [← List.map_cons]
              exact hval
            have hy' : y ∈ val c a :: List.map (val c) ch' := by
              rw [← List.map_cons]
              exact hy
            have hy2 : y ≤ val c a := pairwise_gt_le_head hval' y hy'
            have hak : val c a < val c k := by
              rw [ha]
              exact hA' (r - 1) hseq1 (by omega)
            have hvck : val c k = c.getD k 0 := rfl
            omega
    · have hjl : j ≤ st.longest := hjle j hj hjr
      obtain ⟨hge, hlt', hgc⟩ := mchain j h1 hjl
      rw [hm'ne j hjr]
      exact ⟨hge, Nat.lt_succ_of_lt hlt',
        goodChain_mono_set c st.p k _ j k _ hgc (le_refl k)⟩
  · intro j j' h1 hjj hj'
    by_cases hj'r : j' = r
    · rw [hj'r]
      have hjr : j ≠ r := by omega
      rw [hm'ne j hjr, hm'r, htnk]
      exact hA' j h1 (by omega)
    · have hj'l : j' ≤ st.longest := hjle j' hj' hj'r
      by_cases hjr : j = r
      · subst hjr
        rw [hm'r, hm'ne j' hj'r, htnk]
        exact hB j' (by omega) (by omega)
      · rw [hm'ne j hjr, hm'ne j' hj'r]
        exact tails j j' h1 hjj hj'l
  · intro l hne hp hlt hv i hlast
    by_cases hkin : k ∈ l
    · have hik : i = k := by
        have h1 := pairwise_lt_le_getLast hp hlast k hkin
        have h2 : i ∈ l := getLast?_mem_self hlast
        have h3 := hlt i h2
        omega
      subst hik
      obtain ⟨hdecomp, hdrop⟩ := chain_split_last l i hne hp hlast
      by_cases hld : l.dropLast = []
      · have hlk : l = [i] := by
          have h4 := hdecomp
          rw [hld] at h4
          simpa using h4
        rw [hlk]
        refine ⟨le_trans hr1 (le_max_left _ _), ?_⟩
        by_cases h1r : r = 1
        · have h5 : ([i] : List Nat).length = r := by simp [h1r]
          rw [h5, hm'r, htnk]
        · have h6 : ([i] : List Nat).length = 1 := rfl
          rw [h6, hm'ne 1 (by omega)]
          exact le_of_lt (hA' 1 (by omega) (by omega))
      · have hp' : l.dropLast.Pairwise (· < ·) := by
          have h7 := hp
          rw [hdecomp] at h7
          exact (List.pairwise_append.mp h7).1
        have hv' : (l.dropLast.map (val c)).Pairwise (· < ·) := by
          have h8 := hv
          rw [hdecomp, List.map_append] at h8
          exact (List.pairwise_append.mp h8).1
        have hvk : ∀ x ∈ l.dropLast, val c x < val c i := by
          have h9 := hv
          rw [hdecomp, List.map_append] at h9
          intro x hx
          exact (List.pairwise_append.mp h9).2.2 (val c x) (List.mem_map_of_mem _ hx)
            (val c i) (by simp)
        obtain ⟨q, hq⟩ : ∃ q, l.dropLast.getLast? = some q :=
          ⟨l.dropLast.getLast hld, List.getLast?_eq_getLast _ hld⟩
        obtain ⟨hblen, hbdom⟩ := bound l.dropLast hld hp' hdrop hv' q hq
        have hqmem : q ∈ l.dropLast := getLast?_mem_self hq
        have hqval : val c q < val c i := hvk q hqmem
        have hlenr : l.dropLast.length ≤ r - 1 := by
          by_contra hcon
          push_neg at hcon
          have hBlen : val c i < val c ((st.m.getD l.dropLast.length 0).toNat) :=
            hB l.dropLast.length (by omega) (by omega)
          omega
        have hlen2 : l.length = l.dropLast.length + 1 := by
          conv_lhs => rw [hdecomp]
          simp
        constructor
        · rw [hlen2]
          exact le_trans (by omega) (le_max_left r st.longest)
        · rw [hlen2]
          by_cases hlr : l.dropLast.length + 1 = r
          · rw [hlr, hm'r, htnk]
          · rw [hm'ne _ hlr]
            exact le_of_lt (hA' _ (by omega) (by omega))
    · have hlt' : ∀ x ∈ l, x < k := by
        intro x hx
        have h10 := hlt x hx
        rcases Nat.lt_succ_iff_lt_or_eq.mp h10 with h | h
        · exact h
        · exact absurd (h ▸ hx) hkin
      obtain ⟨hblen, hbdom⟩ := bound l hne hp hlt' hv i hlast
      refine ⟨le_trans hblen (le_max_right _ _), ?_⟩
      by_cases hlr : l.length = r
      · rw [hlr, hm'r, htnk]
        have hBr : val c k < val c ((st.m.getD r 0).toNat) := hB r (le_refl r) (by omega)
        have h11 : val c ((st.m.getD r 0).toNat) ≤ val c i := by
          rw [← hlr]
          exact hbdom
        omega
      · rw [hm'ne _ hlr]
        exact hbdom

/-- The invariant holds after the whole forward pass. -/
theorem lisRun_inv (c : List Nat) (hnd : c.Nodup) : LisInv c c.length (lisRun c) := by
  have hgen : ∀ k, k ≤ c.length →
      LisInv c k ((List.range k).foldl (lisStep c) (lisInit c.length)) := by
    intro k
    induction k with
    | zero => intro _; exact lisInv_init c
    | succ k ih =>
      intro hk
      rw [List.range_succ, List.foldl_append, List.foldl_cons, List.foldl_nil]
      exact lisInv_step c hnd k _ (ih (by omega)) (by omega)
  exact hgen c.length (le_refl _)

/-- The indices `last, last - 1, …, cur`, as a list. -/
def descSeg (cur : Nat) (last : Int) : List Nat :=
  (List.range' cur (last + 1 - cur).toNat).reverse

/-- The indices `0 … last` that are not on the chain, ascending. -/
def compIdx (last : Int) (ch : List Nat) : List Nat :=
  (List.range (last + 1).toNat).filter (fun x => !(ch.contains x))

theorem pushDescending_eq (c : List Nat) (cur : Nat) : ∀ (last : Int),
    pushDescending c cur last = (descSeg cur last).map (val c) := by
  intro last
  rw [pushDescending]
  split
  · rename_i hle
    have hlen : (last + 1 - cur).toNat = (last - cur).toNat + 1 := by omega
    have hcat : List.range' cur ((last - (cur : Int)).toNat + 1)
        = List.range' cur (last - (cur : Int)).toNat ++ [cur + (last - (cur : Int)).toNat] := by
      simpa using @List.range'_concat 1 cur ((last - (cur : Int)).toNat)
    have hlast : cur + (last - (cur : Int)).toNat = last.toNat := by omega
    rw [pushDescending_eq c cur (last - 1)]
    unfold descSeg
    rw [hlen, hcat, hlast, List.reverse_append]
    simp only [List.reverse_cons, List.reverse_nil, List.nil_append, List.cons_append,
      List.map_cons]
    have hlen2 : (last - 1 + 1 - cur).toNat = (last - cur).toNat := by omega
    rw [hlen2]
    simp [val]
  · rename_i hgt
    have hlen : (last + 1 - cur).toNat = 0 := by omega
    unfold descSeg
    rw [hlen]
    rfl
termination_by last => (last + 1 - cur).toNat
decreasing_by omega

theorem compIdx_decomp (k : Nat) (last : Int) (ch' : List Nat)
    (hle : (k : Int) ≤ last)
    (hch' : ∀ x ∈ ch', x < k) :
    (compIdx last (k :: ch')).Perm
      (descSeg (k + 1) last ++ compIdx ((k : Int) - 1) ch') := by
  have hsplit : (last + 1).toNat = (k + 1) + (last + 1 - ((k + 1 : Nat) : Int)).toNat := by
    omega
  have hr : List.range ((last + 1).toNat)
      = List.range (k + 1) ++ List.range' (k + 1) (last + 1 - ((k + 1 : Nat) : Int)).toNat := by
    rw [hsplit, List.range_eq_range', List.range_eq_range']
    have h := List.range'_append 0 (k + 1) ((last + 1 - ((k + 1 : Nat) : Int)).toNat) 1
    simp only [Nat.zero_add, Nat.one_mul] at h
    rw [Nat.add_comm (k + 1) ((last + 1 - ((k + 1 : Nat) : Int)).toNat)]
    exact h.symm
  unfold compIdx
  rw [hr, List.range_succ, List.filter_append, List.filter_append]
  have hmid : List.filter (fun x => !((k :: ch').contains x)) [k] = [] := by
    simp
  have hleft : List.filter (fun x => !((k :: ch').contains x)) (List.range k)
      = List.filter (fun x => !(ch'.contains x)) (List.range (((k : Int) - 1) + 1).toNat) := by
    have hn : (((k : Int) - 1) + 1).toNat = k := by omega
    rw [hn]
    apply List.filter_congr
    intro x hx
    have hxlt : x < k := List.mem_range.mp hx
    have hne : (x == k) = false := by
      simp
      omega
    rw [List.contains_cons, hne, Bool.false_or]
  have hright : List.filter (fun x => !((k :: ch').contains x))
        (List.range' (k + 1) (last + 1 - ((k + 1 : Nat) : Int)).toNat)
      = List.range' (k + 1) (last + 1 - ((k + 1 : Nat) : Int)).toNat := by
    apply List.filter_eq_self.mpr
    intro x hx
    have hxge : k + 1 ≤ x := by
      obtain ⟨i, hi, hxe⟩ := List.mem_range'.mp hx
      omega
    have h1 : (x == k) = false := by
      simp
      omega
    have h2 : ch'.contains x = false := by
      simpa using fun hmem => absurd (hch' x hmem) (by omega)
    rw [List.contains_cons, h1, h2]
    rfl
  rw [hmid, hleft, hright, List.append_nil]
  refine List.Perm.trans List.perm_append_comm ?_
  unfold descSeg
  exact List.Perm.append ((List.reverse_perm _).symm) (List.Perm.refl _)

theorem extract_spec (c : List Nat) (p : List Int) : ∀ (ch : List Nat) (cur fuel : Nat)
    (last : Int) (lis toMove : List Nat),
    PChain p cur ch → ch.Pairwise (· > ·) → ch.length < fuel →
    (∀ x ∈ ch, (x : Int) ≤ last) →
    (extractLoop c p fuel cur last lis toMove).1 = lis ++ ch.map (val c) ∧
    ((extractLoop c p fuel cur last lis toMove).2.1 ++
        pushDescending c 0 (extractLoop c p fuel cur last lis toMove).2.2).Perm
      (toMove ++ (compIdx last ch).map (val c)) := by
  intro ch
  induction ch with
  | nil =>
    intro cur fuel last lis toMove hpc hpw hfuel hlast
    have hcur : cur = 0 := by cases hpc; rfl
    subst hcur
    obtain ⟨f, rfl⟩ : ∃ f, fuel = f + 1 := ⟨fuel - 1, by omega⟩
    rw [extractLoop, if_pos rfl]
    refine ⟨by simp, ?_⟩
    rw [pushDescending_eq]
    unfold descSeg compIdx
    refine List.Perm.append_left toMove ?_
    have hseg : (last + 1 - ((0 : Nat) : Int)).toNat = (last + 1).toNat := by omega
    rw [hseg]
    have hfilter : (List.range (last + 1).toNat).filter
        (fun x => !(([] : List Nat).contains x)) = List.range (last + 1).toNat := by
      apply List.filter_eq_self.mpr
      intro x hx
      rfl
    rw [hfilter, List.range_eq_range']
    exact List.Perm.map _ (List.reverse_perm _)
  | cons a ch' ih =>
    intro cur fuel last lis toMove hpc hpw hfuel hlast
    cases hpc with
    | step cur rest hne hrest =>
      obtain ⟨f, rfl⟩ : ∃ f, fuel = f + 1 := ⟨fuel - 1, by omega⟩
      rw [extractLoop, if_neg hne]
      have hhead : ((cur - 1 : Nat) : Int) ≤ last := hlast (cur - 1) (by simp)
      have hlast' : (if (cur : Int) ≤ last then (cur : Int) - 1 else last) - 1
          = ((cur - 1 : Nat) : Int) - 1 := by
        split <;> omega
      rw [hlast']
      have hch'lt : ∀ x ∈ ch', x < cur - 1 := (List.pairwise_cons.mp hpw).1
      obtain ⟨ih1, ih2⟩ := ih ((p.getD (cur - 1) 0).toNat) f (((cur - 1 : Nat) : Int) - 1)
        (lis ++ [c.getD (cur - 1) 0]) (toMove ++ pushDescending c cur last) hrest
        (List.pairwise_cons.mp hpw).2 (by simp at hfuel ⊢; omega)
        (fun x hx => by
          have h1 := hch'lt x hx
          omega)
      refine ⟨?_, ?_⟩
      · rw [ih1]
        simp [val]
      · refine ih2.trans ?_
        rw [List.append_assoc]
        refine List.Perm.append_left toMove ?_
        have hdec := compIdx_decomp (cur - 1) last ch' hhead hch'lt
        have hk1 : cur - 1 + 1 = cur := by omega
        rw [hk1] at hdec
        rw [pushDescending_eq, ← List.map_append]
        exact (List.Perm.map (val c) hdec).symm

theorem advanceJ_spec (lisv : List Nat) (t : Nat) : ∀ (j : Nat),
    j ≤ advanceJ lisv t j ∧
    (∀ idx, j ≤ idx → idx < advanceJ lisv t j → lisv.getD idx 0 ≤ t) ∧
    (advanceJ lisv t j < lisv.length → t < lisv.getD (advanceJ lisv t j) 0) ∧
    (j ≤ lisv.length → advanceJ lisv t j ≤ lisv.length) := by
  intro j
  rw [advanceJ]
  split
  · rename_i h
    obtain ⟨ih1, ih2, ih3, ih4⟩ := advanceJ_spec lisv t (j + 1)
    refine ⟨by omega, ?_, ih3, fun _ => ih4 (by omega)⟩
    intro idx hge hlt
    rcases Nat.eq_or_lt_of_le hge with heq | hgt
    · rw [← heq]
      exact h.2
    · exact ih2 idx hgt hlt
  · rename_i h
    refine ⟨le_refl j, fun idx hge hlt => absurd (lt_of_le_of_lt hge hlt) (lt_irrefl j), ?_,
      fun hj => hj⟩
    intro hlen
    rcases Nat.lt_or_ge t (lisv.getD j 0) with hlt | hge
    · exact hlt
    · exact absurd ⟨hlen, hge⟩ h
termination_by j => lisv.length - j
decreasing_by omega

theorem mem_insertBeforeList {l : List Nat} {node a : Nat} :
    ∀ y, y ∈ insertBeforeList l node a ↔ y = node ∨ y ∈ l := by
  induction l with
  | nil =>
    intro y
    simp [insertBeforeList]
  | cons x xs ih =>
    intro y
    unfold insertBeforeList
    split
    · simp
    · rw [List.mem_cons, ih y, List.mem_cons]
      tauto

theorem insertBeforeList_perm {l : List Nat} {node a : Nat} (h : a ∈ l) :
    (insertBeforeList l node a).Perm (node :: l) := by
  induction l with
  | nil => exact absurd h (List.not_mem_nil a)
  | cons x xs ih =>
    unfold insertBeforeList
    split
    · exact List.Perm.refl _
    · rename_i hne
      have hxs : a ∈ xs := by
        rcases List.mem_cons.mp h with rfl | hm
        · exact absurd rfl hne
        · exact hm
      exact ((ih hxs).cons x).trans (List.Perm.swap node x xs)

theorem insertBeforeList_sorted {l : List Nat} {node a : Nat}
    (hs : l.Pairwise (· < ·)) (ha : a ∈ l) (hna : node < a)
    (hsmall : ∀ x ∈ l, x < a → x < node) :
    (insertBeforeList l node a).Pairwise (· < ·) := by
  induction l with
  | nil => exact absurd ha (List.not_mem_nil a)
  | cons x xs ih =>
    unfold insertBeforeList
    split
    · rename_i hxa
      subst hxa
      refine List.pairwise_cons.mpr ⟨?_, hs⟩
      intro y hy
      rcases List.mem_cons.mp hy with rfl | hm
      · exact hna
      · exact lt_trans hna ((List.pairwise_cons.mp hs).1 y hm)
    · rename_i hne
      have hxs : a ∈ xs := by
        rcases List.mem_cons.mp ha with rfl | hm
        · exact absurd rfl hne
        · exact hm
      have hxa : x < a := (List.pairwise_cons.mp hs).1 a hxs
      refine List.pairwise_cons.mpr ⟨?_, ?_⟩
      · intro y hy
        rcases (mem_insertBeforeList y).mp hy with rfl | hm
        · exact hsmall x (by simp) hxa
        · exact (List.pairwise_cons.mp hs).1 y hm
      · exact ih (List.pairwise_cons.mp hs).2 hxs
          (fun z hz hza => hsmall z (List.mem_cons_of_mem x hz) hza)

theorem insertBeforeList_cons (x : Nat) (xs : List Nat) (node a : Nat) :
    insertBeforeList (x :: xs) node a
      = if x = a then node :: x :: xs else x :: insertBeforeList xs node a := rfl

theorem filter_insertBeforeList {l : List Nat} {node a : Nat} {p : Nat → Bool}
    (hn : p node = true) (hpa : p a = true) :
    (insertBeforeList l node a).filter p = insertBeforeList (l.filter p) node a := by
  induction l with
  | nil =>
    simp [insertBeforeList, hn]
  | cons x xs ih =>
    rw [insertBeforeList_cons]
    by_cases hxa : x = a
    · subst hxa
      simp [List.filter_cons, hn, hpa, insertBeforeList_cons]
    · rw [if_neg hxa, List.filter_cons, List.filter_cons]
      by_cases hpx : p x = true
      · rw [hpx]
        simp only [if_true]
        rw [ih, insertBeforeList_cons, if_neg hxa]
      · rw [Bool.not_eq_true] at hpx
        rw [hpx]
        simp only [Bool.false_eq_true, if_false]
        exact ih

theorem erase_filter_eq (t : Nat) (rest : List Nat) : ∀ (dom : List Nat), dom.Nodup →
    (dom.erase t).filter (fun v => !(rest.contains v))
      = dom.filter (fun v => !((t :: rest).contains v)) := by
  intro dom
  induction dom with
  | nil =>
    intro _
    rfl
  | cons x xs ih =>
    intro hnd
    by_cases hxt : x = t
    · subst hxt
      rw [List.erase_cons_head, List.filter_cons]
      have hself : (!((x :: rest).contains x)) = false := by
        simp
      rw [hself]
      simp only [Bool.false_eq_true, if_false]
      apply List.filter_congr
      intro v hv
      have hvx : v ≠ x := fun he => (List.nodup_cons.mp hnd).1 (he ▸ hv)
      simp only [List.contains_cons]
      have hbe : (v == x) = false := by
        simp
        exact hvx
      rw [hbe, Bool.false_or]
    · rw [List.erase_cons_tail (by simpa using hxt), List.filter_cons, List.filter_cons]
      have htest : (!(rest.contains x)) = (!((t :: rest).contains x)) := by
        simp only [List.contains_cons]
        have hbe : (x == t) = false := by
          simp
          exact hxt
        rw [hbe, Bool.false_or]
      rw [htest, ih (List.nodup_cons.mp hnd).2]

theorem moveLoop_go (lisv : List Nat) (hlis : lisv.Pairwise (· < ·)) :
    ∀ (tm : List Nat) (j : Nat) (dom : List Nat) (cnt : Nat),
    tm.Pairwise (· < ·) →
    dom.Nodup →
    (∀ x ∈ lisv, x ∈ dom) →
    (∀ x ∈ tm, x ∈ dom) →
    (∀ x ∈ tm, x ∉ lisv) →
    (∀ idx, idx < j → ∀ t ∈ tm, lisv.getD idx 0 ≤ t) →
    (∀ x ∈ dom, x ∉ tm → x ∉ lisv → ∀ t ∈ tm, x < t) →
    (dom.filter (fun v => !(tm.contains v))).Pairwise (· < ·) →
    (moveLoop lisv tm j dom cnt).1.Pairwise (· < ·) ∧
    (moveLoop lisv tm j dom cnt).1.Perm dom ∧
    (moveLoop lisv tm j dom cnt).2 = cnt + tm.length := by
  intro tm
  induction tm with
  | nil =>
    intro j dom cnt _ _ _ _ _ _ _ hsettled
    rw [moveLoop]
    refine ⟨?_, List.Perm.refl dom, by simp⟩
    have hid : dom.filter (fun v => !(([] : List Nat).contains v)) = dom := by
      apply List.filter_eq_self.mpr
      intro x hx
      rfl
    rwa [hid] at hsettled
  | cons t rest ih =>
    intro j dom cnt htm hnd hlsub htsub hdisj hj hproc hsettled
    rw [moveLoop]
    have htdom : t ∈ dom := htsub t (by simp)
    have htrest : t ∉ rest := by
      intro hm
      exact absurd ((List.pairwise_cons.mp htm).1 t hm) (lt_irrefl t)
    have htlt : ∀ x ∈ rest, t < x := (List.pairwise_cons.mp htm).1
    obtain ⟨haj1, haj2, haj3, haj4⟩ := advanceJ_spec lisv t j
    have hjall : ∀ idx, idx < advanceJ lisv t j → lisv.getD idx 0 ≤ t := by
      intro idx hlt
      rcases Nat.lt_or_ge idx j with hlj | hgj
      · exact hj idx hlj t (by simp)
      · exact haj2 idx hgj hlt
    have hidx_le : ∀ x ∈ lisv, x < lisv.getD (advanceJ lisv t j) 0 →
        advanceJ lisv t j < lisv.length → x ≤ t := by
      intro x hx hxa hlen
      obtain ⟨i, hi, hxe⟩ := List.mem_iff_getElem.mp hx
      have hgd : lisv.getD i 0 = x := by rw [List.getD_eq_getElem lisv 0 hi, hxe]
      rcases Nat.lt_or_ge i (advanceJ lisv t j) with hlt | hge
      · rw [← hgd]
        exact hjall i hlt
      · exfalso
        rcases Nat.eq_or_lt_of_le hge with heq | hgt
        · rw [← heq] at hgd
          rw [hgd] at hxa
          exact lt_irrefl x hxa
        · have hmono : lisv.getD (advanceJ lisv t j) 0 < lisv.getD i 0 := by
            have hp := List.pairwise_iff_getElem.mp hlis (advanceJ lisv t j) i hlen hi hgt
            rw [List.getD_eq_getElem lisv 0 hlen, List.getD_eq_getElem lisv 0 hi]
            exact hp
          rw [hgd] at hmono
          omega
    have hnotin_lt : ∀ x ∈ dom, x ∉ (t :: rest) → x ∉ lisv → x < t :=
      fun x hx hnt hnl => hproc x hx hnt hnl t (by simp)
    by_cases hlt : advanceJ lisv t j < lisv.length
    · rw [if_pos hlt]
      have ha_mem_lis : lisv.getD (advanceJ lisv t j) 0 ∈ lisv := by
        rw [List.getD_eq_getElem lisv 0 hlt]
        exact List.getElem_mem hlt
      have hta : t < lisv.getD (advanceJ lisv t j) 0 := haj3 hlt
      have ha_ne_t : lisv.getD (advanceJ lisv t j) 0 ≠ t := by omega
      have ha_dom : lisv.getD (advanceJ lisv t j) 0 ∈ dom := hlsub _ ha_mem_lis
      have ha_erase : lisv.getD (advanceJ lisv t j) 0 ∈ dom.erase t :=
        (List.mem_erase_of_ne ha_ne_t).mpr ha_dom
      have hanotin : lisv.getD (advanceJ lisv t j) 0 ∉ rest :=
        fun hm => hdisj _ (List.mem_cons_of_mem t hm) ha_mem_lis
      have hanotin2 : lisv.getD (advanceJ lisv t j) 0 ∉ (t :: rest) := by
        simp only [List.mem_cons]
        rintro (he | hm)
        · exact ha_ne_t he
        · exact hanotin hm
      have hperm_dom : (insertBefore dom t
          (some (lisv.getD (advanceJ lisv t j) 0))).Perm dom := by
        unfold insertBefore
        exact (insertBeforeList_perm ha_erase).trans (List.perm_cons_erase htdom).symm
      have hnd2 : (insertBefore dom t (some (lisv.getD (advanceJ lisv t j) 0))).Nodup :=
        hperm_dom.nodup_iff.mpr hnd
      have hsettled2 : ((insertBefore dom t (some (lisv.getD (advanceJ lisv t j) 0))).filter
          (fun v => !(rest.contains v))).Pairwise (· < ·) := by
        unfold insertBefore
        have hpt : (!(rest.contains t)) = true := by simpa using htrest
        have hpa : (!(rest.contains (lisv.getD (advanceJ lisv t j) 0))) = true := by
          simpa using hanotin
        rw [filter_insertBeforeList hpt hpa, erase_filter_eq t rest dom hnd]
        apply insertBeforeList_sorted hsettled
        · rw [List.mem_filter]
          refine ⟨ha_dom, ?_⟩
          simpa using hanotin2
        · exact hta
        · intro x hx hxa
          have hxdom := (List.mem_filter.mp hx).1
          have hxnot : x ∉ (t :: rest) := by
            have hxf := (List.mem_filter.mp hx).2
            simpa using hxf
          by_cases hxl : x ∈ lisv
          · have hle := hidx_le x hxl hxa hlt
            rcases Nat.eq_or_lt_of_le hle with heq | hlt2
            · exact absurd (by simp [heq]) hxnot
            · exact hlt2
          · exact hnotin_lt x hxdom hxnot hxl
      obtain ⟨c1, c2, c3⟩ := ih (advanceJ lisv t j)
        (insertBefore dom t (some (lisv.getD (advanceJ lisv t j) 0))) (cnt + 1)
        (List.pairwise_cons.mp htm).2 hnd2
        (fun x hx => hperm_dom.mem_iff.mpr (hlsub x hx))
        (fun x hx => hperm_dom.mem_iff.mpr (htsub x (List.mem_cons_of_mem t hx)))
        (fun x hx => hdisj x (List.mem_cons_of_mem t hx))
        (fun idx hidx t2 ht2 => le_trans (hjall idx hidx) (le_of_lt (htlt t2 ht2)))
        (fun x hx hnr hnl t2 ht2 => by
          have hxd := hperm_dom.mem_iff.mp hx
          by_cases hxt : x = t
          · subst hxt
            exact htlt t2 ht2
          · have hxnt : x ∉ (t :: rest) := by simp [hxt, hnr]
            exact lt_trans (hnotin_lt x hxd hxnt hnl) (htlt t2 ht2))
        hsettled2
      exact ⟨c1, c2.trans hperm_dom, by rw [c3, List.length_cons]; omega⟩
    · rw [if_neg hlt]
      have hperm_dom : (insertBefore dom t none).Perm dom := by
        unfold insertBefore
        exact List.perm_append_comm.trans (List.perm_cons_erase htdom).symm
      have hnd2 : (insertBefore dom t none).Nodup := hperm_dom.nodup_iff.mpr hnd
      have hall_le : ∀ x ∈ lisv, x ≤ t := by
        intro x hx
        obtain ⟨i, hi, hxe⟩ := List.mem_iff_getElem.mp hx
        have hgd : lisv.getD i 0 = x := by rw [List.getD_eq_getElem lisv 0 hi, hxe]
        rw [← hgd]
        exact hjall i (by omega)
      have hsettled2 : ((insertBefore dom t none).filter
          (fun v => !(rest.contains v))).Pairwise (· < ·) := by
        unfold insertBefore
        rw [List.filter_append]
        have hpt : List.filter (fun v => !(rest.contains v)) [t] = [t] := by
          simpa using htrest
        rw [hpt, erase_filter_eq t rest dom hnd]
        apply List.pairwise_append.mpr
        refine ⟨hsettled, by simp, ?_⟩
        intro x hx y hy
        rw [List.mem_singleton] at hy
        rw [hy]
        have hxdom := (List.mem_filter.mp hx).1
        have hxnot : x ∉ (t :: rest) := by
          have hxf := (List.mem_filter.mp hx).2
          simpa using hxf
        by_cases hxl : x ∈ lisv
        · have hle := hall_le x hxl
          rcases Nat.eq_or_lt_of_le hle with heq | hlt2
          · exact absurd (by simp [heq]) hxnot
          · exact hlt2
        · exact hnotin_lt x hxdom hxnot hxl
      obtain ⟨c1, c2, c3⟩ := ih (advanceJ lisv t j) (insertBefore dom t none) (cnt + 1)
        (List.pairwise_cons.mp htm).2 hnd2
        (fun x hx => hperm_dom.mem_iff.mpr (hlsub x hx))
        (fun x hx => hperm_dom.mem_iff.mpr (htsub x (List.mem_cons_of_mem t hx)))
        (fun x hx => hdisj x (List.mem_cons_of_mem t hx))
        (fun idx hidx t2 ht2 => le_trans (hjall idx hidx) (le_of_lt (htlt t2 ht2)))
        (fun x hx hnr hnl t2 ht2 => by
          have hxd := hperm_dom.mem_iff.mp hx
          by_cases hxt : x = t
          · subst hxt
            exact htlt t2 ht2
          · have hxnt : x ∉ (t :: rest) := by simp [hxt, hnr]
            exact lt_trans (hnotin_lt x hxd hxnt hnl) (htlt t2 ht2))
        hsettled2
      exact ⟨c1, c2.trans hperm_dom, by rw [c3, List.length_cons]; omega⟩

theorem chain_exists (c : List Nat) (hnd : c.Nodup) :
    ∃ ch : List Nat,
      PChain (lisRun c).p (((lisRun c).m.getD (lisRun c).longest 0 + 1)).toNat ch ∧
      ch.length = (lisRun c).longest ∧
      ch.Pairwise (· > ·) ∧ (∀ x ∈ ch, x < c.length) ∧
      (ch.map (val c)).Pairwise (· > ·) := by
  have inv := lisRun_inv c hnd
  by_cases h0 : (lisRun c).longest = 0
  · have hz : (((lisRun c).m.getD (lisRun c).longest 0 + 1)).toNat = 0 := by
      rw [h0, inv.m0]
      rfl
    refine ⟨[], ?_, by simp [h0], by simp, by simp, by simp⟩
    rw [hz]
    exact PChain.zero
  · obtain ⟨hge, hlt, hgc⟩ := inv.mchain (lisRun c).longest (by omega) (le_refl _)
    obtain ⟨ch, hpc, hlen, hpw, hbnd, hval⟩ := hgc
    have heq : (((lisRun c).m.getD (lisRun c).longest 0 + 1)).toNat
        = ((lisRun c).m.getD (lisRun c).longest 0).toNat + 1 := by omega
    exact ⟨ch, by rw [heq]; exact hpc, hlen, hpw, hbnd, hval⟩

theorem range_map_val (c : List Nat) : (List.range c.length).map (val c) = c := by
  apply List.ext_getElem
  · simp
  · intro i h1 h2
    rw [List.getElem_map, List.getElem_range, val, List.getD_eq_getElem c 0 h2]

theorem filter_eq_map_filter_range (c : List Nat) (p : Nat → Bool) :
    c.filter p = ((List.range c.length).filter (fun i => p (val c i))).map (val c) := by
  conv_lhs => rw [← range_map_val c]
  rw [List.filter_map]
  rfl

theorem hydrate_core (c : List Nat) (hnd : c.Nodup) (ch : List Nat) (tm0 : List Nat)
    (hE2 : tm0.Perm ((compIdx ((c.length : Int) - 1) ch).map (val c)))
    (hpw : ch.Pairwise (· > ·)) (hbnd : ∀ x ∈ ch, x < c.length)
    (hval : (ch.map (val c)).Pairwise (· > ·)) :
    (moveLoop ((ch.map (val c)).reverse) (tm0.mergeSort (fun a b => a ≤ b)) 0 c 0).1.Pairwise
        (· < ·) ∧
    (moveLoop ((ch.map (val c)).reverse) (tm0.mergeSort (fun a b => a ≤ b)) 0 c 0).1.Perm c ∧
    (moveLoop ((ch.map (val c)).reverse) (tm0.mergeSort (fun a b => a ≤ b)) 0 c 0).2
      = c.length - ch.length ∧
    ((ch.map (val c)).reverse).Sublist c ∧
    (∀ x ∈ (ch.map (val c)).reverse, x ∉ tm0.mergeSort (fun a b => a ≤ b)) := by
  have hcomp : compIdx ((c.length : Int) - 1) ch
      = (List.range c.length).filter (fun x => !(ch.contains x)) := by
    unfold compIdx
    have h1 : (((c.length : Int) - 1) + 1).toNat = c.length := by omega
    rw [h1]
  rw [hcomp] at hE2
  have hch_nodup : ch.Nodup := hpw.imp fun hab => ne_of_gt hab
  have hF0_mem : ∀ j ∈ (List.range c.length).filter (fun x => !(ch.contains x)),
      j < c.length ∧ j ∉ ch := by
    intro j hj
    rw [List.mem_filter, List.mem_range] at hj
    refine ⟨hj.1, ?_⟩
    have hb := hj.2
    simpa using hb
  have hS_nodup : (((List.range c.length).filter (fun x => !(ch.contains x))).map
      (val c)).Nodup := by
    apply List.Nodup.map_on
    · intro x hx y hy hxy
      by_contra hne
      exact val_ne_of_ne c hnd (hF0_mem x hx).1 (hF0_mem y hy).1 hne hxy
    · exact List.Nodup.filter _ (List.nodup_range c.length)
  have h_tm2_perm : (tm0.mergeSort (fun a b => a ≤ b)).Perm
      (((List.range c.length).filter (fun x => !(ch.contains x))).map (val c)) :=
    (List.mergeSort_perm tm0 (fun a b => a ≤ b)).trans hE2
  have h_tm2_nodup : (tm0.mergeSort (fun a b => a ≤ b)).Nodup :=
    h_tm2_perm.nodup_iff.mpr hS_nodup
  have h_tm2_le : (tm0.mergeSort (fun a b => a ≤ b)).Pairwise (· ≤ ·) := by
    have hs := List.sorted_mergeSort
      (fun a b d h1 h2 => by
        show decide (a ≤ d) = true
        exact decide_eq_true (le_trans (of_decide_eq_true h1) (of_decide_eq_true h2)))
      (fun a b => by
        show (decide (a ≤ b) || decide (b ≤ a)) = true
        rcases Nat.le_total a b with h | h <;> simp [h])
      tm0
    exact hs.imp fun h => of_decide_eq_true h
  have h_tm2_sorted : (tm0.mergeSort (fun a b => a ≤ b)).Pairwise (· < ·) :=
    List.Sorted.lt_of_le h_tm2_le h_tm2_nodup
  have h_lis2_sorted : ((ch.map (val c)).reverse).Pairwise (· < ·) :=
    List.pairwise_reverse.mpr hval
  have hval_mem : ∀ i, i < c.length → val c i ∈ c := by
    intro i hi
    rw [val, List.getD_eq_getElem c 0 hi]
    exact List.getElem_mem hi
  have h_mem_lis2 : ∀ v, v ∈ (ch.map (val c)).reverse ↔ ∃ i ∈ ch, val c i = v := by
    intro v
    rw [List.mem_reverse, List.mem_map]
  have h_mem_tm2 : ∀ v, v ∈ tm0.mergeSort (fun a b => a ≤ b) ↔
      ∃ j, j < c.length ∧ j ∉ ch ∧ val c j = v := by
    intro v
    rw [h_tm2_perm.mem_iff, List.mem_map]
    constructor
    · rintro ⟨j, hjF, hjv⟩
      obtain ⟨h1, h2⟩ := hF0_mem j hjF
      exact ⟨j, h1, h2, hjv⟩
    · rintro ⟨j, hj1, hj2, hj3⟩
      refine ⟨j, ?_, hj3⟩
      rw [List.mem_filter, List.mem_range]
      exact ⟨hj1, by simpa using hj2⟩
  have h_disj : ∀ x ∈ (ch.map (val c)).reverse, x ∉ tm0.mergeSort (fun a b => a ≤ b) := by
    intro x hx hmem
    obtain ⟨i, hich, hiv⟩ := (h_mem_lis2 x).mp hx
    obtain ⟨j, hj1, hj2, hj3⟩ := (h_mem_tm2 x).mp hmem
    by_cases hij : i = j
    · exact hj2 (hij ▸ hich)
    · exact val_ne_of_ne c hnd (hbnd i hich) hj1 hij (hiv.trans hj3.symm)
  have hfilter_ch : (List.range c.length).filter (fun i => ch.contains i) = ch.reverse := by
    have hperm1 : ((List.range c.length).filter (fun i => ch.contains i)).Perm ch.reverse := by
      apply List.perm_of_nodup_nodup_toFinset_eq
      · exact List.Nodup.filter _ (List.nodup_range c.length)
      · exact List.nodup_reverse.mpr hch_nodup
      · ext x
        simp only [List.mem_toFinset, List.mem_filter, List.mem_range, List.mem_reverse]
        constructor
        · rintro ⟨h1, h2⟩
          simpa using h2
        · intro hm
          exact ⟨hbnd x hm, by simpa using hm⟩
    have hs1 : ((List.range c.length).filter (fun i => ch.contains i)).Pairwise (· < ·) :=
      List.Pairwise.filter _ (List.pairwise_lt_range c.length)
    have hs2 : (ch.reverse).Pairwise (· < ·) := List.pairwise_reverse.mpr hpw
    exact List.eq_of_perm_of_sorted hperm1 hs1 hs2
  have hsettled_eq : c.filter (fun v => !((tm0.mergeSort (fun a b => a ≤ b)).contains v))
      = (ch.map (val c)).reverse := by
    rw [filter_eq_map_filter_range c (fun v => !((tm0.mergeSort (fun a b => a ≤ b)).contains v))]
    have hcongr : (List.range c.length).filter
        (fun i => !((tm0.mergeSort (fun a b => a ≤ b)).contains (val c i)))
        = (List.range c.length).filter (fun i => ch.contains i) := by
      apply List.filter_congr
      intro i hi
      rw [List.mem_range] at hi
      by_cases hich : i ∈ ch
      · have hnotin : val c i ∉ tm0.mergeSort (fun a b => a ≤ b) := by
          intro hmem
          obtain ⟨j, hj1, hj2, hj3⟩ := (h_mem_tm2 (val c i)).mp hmem
          by_cases hij : i = j
          · exact hj2 (hij ▸ hich)
          · exact val_ne_of_ne c hnd hi hj1 hij hj3.symm
        have h1 : (!((tm0.mergeSort (fun a b => a ≤ b)).contains (val c i))) = true := by
          simpa using hnotin
        have h2 : ch.contains i = true := by simpa using hich
        rw [h1, h2]
      · have hin : val c i ∈ tm0.mergeSort (fun a b => a ≤ b) :=
          (h_mem_tm2 (val c i)).mpr ⟨i, hi, hich, rfl⟩
        have h1 : (!((tm0.mergeSort (fun a b => a ≤ b)).contains (val c i))) = false := by
          simpa using hin
        have h2 : ch.contains i = false := by simpa using hich
        rw [h1, h2]
    rw [hcongr, hfilter_ch, ← List.map_reverse]
  obtain ⟨m1, m2, m3⟩ := moveLoop_go ((ch.map (val c)).reverse) h_lis2_sorted
    (tm0.mergeSort (fun a b => a ≤ b)) 0 c 0 h_tm2_sorted hnd
    (fun x hx => by
      obtain ⟨i, hich, hiv⟩ := (h_mem_lis2 x).mp hx
      exact hiv ▸ hval_mem i (hbnd i hich))
    (fun x hx => by
      obtain ⟨j, hj1, _, hj3⟩ := (h_mem_tm2 x).mp hx
      exact hj3 ▸ hval_mem j hj1)
    (fun x hx hl => h_disj x hl hx)
    (fun idx hidx => absurd hidx (Nat.not_lt_zero idx))
    (fun x hx hnt hnl t2 ht2 => by
      exfalso
      obtain ⟨i, hi, hie⟩ := List.mem_iff_getElem.mp hx
      have hxv : val c i = x := by rw [val, List.getD_eq_getElem c 0 hi, hie]
      by_cases hich : i ∈ ch
      · exact hnl ((h_mem_lis2 x).mpr ⟨i, hich, hxv⟩)
      · exact hnt ((h_mem_tm2 x).mpr ⟨i, hi, hich, hxv⟩))
    (by rw [hsettled_eq]; exact h_lis2_sorted)
  have hlen_tm2 : (tm0.mergeSort (fun a b => a ≤ b)).length = c.length - ch.length := by
    rw [h_tm2_perm.length_eq, List.length_map]
    have hsplit := @List.length_eq_length_filter_add Nat (List.range c.length)
      (fun x => ch.contains x)
    have hch_len : ((List.range c.length).filter (fun i => ch.contains i)).length
        = ch.length := by
      rw [hfilter_ch, List.length_reverse]
    rw [List.length_range] at hsplit
    omega
  refine ⟨m1, m2, ?_, ?_, h_disj⟩
  · rw [m3, hlen_tm2]
    omega
  · rw [← hsettled_eq]
    exact List.filter_sublist c

theorem init_hydrate_spec (c : List Nat) (hnd : c.Nodup) :
    (init_hydrate c).dom.Pairwise (· < ·) ∧
    (init_hydrate c).dom.Perm c ∧
    (init_hydrate c).lis.Sublist c ∧
    (init_hydrate c).lis.Pairwise (· < ·) ∧
    (∀ l : List Nat, l.Sublist c → l.Pairwise (· < ·) →
      l.length ≤ (init_hydrate c).lis.length) ∧
    (∀ x ∈ (init_hydrate c).lis, x ∉ (init_hydrate c).toMove) ∧
    (init_hydrate c).inserts = c.length - (init_hydrate c).lis.length := by
  obtain ⟨ch, hpc, hlen, hpw, hbnd, hval⟩ := chain_exists c hnd
  have inv := lisRun_inv c hnd
  obtain ⟨hext1, hext2⟩ := extract_spec c (lisRun c).p ch
    (((lisRun c).m.getD (lisRun c).longest 0 + 1)).toNat (c.length + 1)
    ((c.length : Int) - 1) [] [] hpc hpw
    (by rw [hlen]; have hll := inv.longle; omega)
    (fun x hx => by have hxx := hbnd x hx; omega)
  rw [List.nil_append] at hext1 hext2
  have hcore := hydrate_core c hnd ch
    ((extractLoop c (lisRun c).p (c.length + 1)
      (((lisRun c).m.getD (lisRun c).longest 0 + 1)).toNat
      ((c.length : Int) - 1) [] []).2.1 ++ pushDescending c 0
      (extractLoop c (lisRun c).p (c.length + 1)
      (((lisRun c).m.getD (lisRun c).longest 0 + 1)).toNat
      ((c.length : Int) - 1) [] []).2.2)
    hext2 hpw hbnd hval
  have hkey : init_hydrate c =
      ⟨(moveLoop ((ch.map (val c)).reverse)
          (((extractLoop c (lisRun c).p (c.length + 1)
            (((lisRun c).m.getD (lisRun c).longest 0 + 1)).toNat
            ((c.length : Int) - 1) [] []).2.1 ++ pushDescending c 0
            (extractLoop c (lisRun c).p (c.length + 1)
            (((lisRun c).m.getD (lisRun c).longest 0 + 1)).toNat
            ((c.length : Int) - 1) [] []).2.2).mergeSort (fun a b => a ≤ b)) 0 c 0).1,
        (moveLoop ((ch.map (val c)).reverse)
          (((extractLoop c (lisRun c).p (c.length + 1)
            (((lisRun c).m.getD (lisRun c).longest 0 + 1)).toNat
            ((c.length : Int) - 1) [] []).2.1 ++ pushDescending c 0
            (extractLoop c (lisRun c).p (c.length + 1)
            (((lisRun c).m.getD (lisRun c).longest 0 + 1)).toNat
            ((c.length : Int) - 1) [] []).2.2).mergeSort (fun a b => a ≤ b)) 0 c 0).2,
        (ch.map (val c)).reverse,
        ((extractLoop c (lisRun c).p (c.length + 1)
          (((lisRun c).m.getD (lisRun c).longest 0 + 1)).toNat
          ((c.length : Int) - 1) [] []).2.1 ++ pushDescending c 0
          (extractLoop c (lisRun c).p (c.length + 1)
          (((lisRun c).m.getD (lisRun c).longest 0 + 1)).toNat
          ((c.length : Int) - 1) [] []).2.2).mergeSort (fun a b => a ≤ b)⟩ := by
    simp only [init_hydrate]
    rw [hext1]
  obtain ⟨m1, m2, m3, m4, m5⟩ := hcore
  rw [hkey]
  refine ⟨m1, m2, m4, ?_, ?_, m5, ?_⟩
  · exact List.pairwise_reverse.mpr hval
  · intro l hsub hsort
    have hlis_len : ((ch.map (val c)).reverse).length = (lisRun c).longest := by
      rw [List.length_reverse, List.length_map, hlen]
    show l.length ≤ ((ch.map (val c)).reverse).length
    rw [hlis_len]
    rcases eq_or_ne l [] with rfl | hne
    · exact Nat.zero_le _
    obtain ⟨is, hl2, hispw⟩ := List.sublist_eq_map_getElem hsub
    have hidx_pw : (is.map Fin.val).Pairwise (· < ·) :=
      List.pairwise_map.mpr (hispw.imp fun h => h)
    have hidx_lt : ∀ x ∈ is.map Fin.val, x < c.length := by
      intro x hx
      obtain ⟨f, _, rfl⟩ := List.mem_map.mp hx
      exact f.isLt
    have hmapval : (is.map Fin.val).map (val c) = l := by
      rw [hl2, List.map_map]
      apply List.map_congr_left
      intro f hf
      simp only [Function.comp_apply]
      rw [val, List.getD_eq_getElem c 0 f.isLt]
      simp
    have hval_pw : ((is.map Fin.val).map (val c)).Pairwise (· < ·) := by
      rw [hmapval]
      exact hsort
    have hne_idx : is.map Fin.val ≠ [] := by
      intro h0
      have his : is = [] := List.map_eq_nil_iff.mp h0
      exact hne (by rw [hl2, his]; rfl)
    have hgl := List.getLast?_eq_getLast (is.map Fin.val) hne_idx
    obtain ⟨hlenb, _⟩ := inv.bound (is.map Fin.val) hne_idx hidx_pw hidx_lt
      hval_pw ((is.map Fin.val).getLast hne_idx) hgl
    have hleq : l.length = (is.map Fin.val).length := by
      rw [List.length_map, hl2, List.length_map]
    rw [hleq]
    exact hlenb
  · show _ = c.length - ((ch.map (val c)).reverse).length
    rw [List.length_reverse, List.length_map]
    exact m3

/-- C2: for every child list whose nodes carry pairwise-distinct claim
orders, `init_hydrate` leaves the siblings in strictly ascending claim
order (a permutation of the originals), the computed kept list is a
strictly increasing subsequence of the children of maximal length and is
disjoint from the moved set (LIS nodes are never moved), and the number
of `insertBefore` calls is exactly `children.length - lis.length`; in
particular on `[2,0,1,4,3]` it performs exactly 2 calls ending in
`[0,1,2,3,4]`, and on an already ascending list it performs zero
moves. -/
theorem C2_init_hydrate_lis (c : List Nat) (hnd : c.Nodup) :
    ((init_hydrate c).dom.Pairwise (· < ·) ∧ (init_hydrate c).dom.Perm c) ∧
    ((init_hydrate c).lis.Sublist c ∧ (init_hydrate c).lis.Pairwise (· < ·) ∧
      (∀ l : List Nat, l.Sublist c → l.Pairwise (· < ·) →
        l.length ≤ (init_hydrate c).lis.length) ∧
      (∀ x ∈ (init_hydrate c).lis, x ∉ (init_hydrate c).toMove)) ∧
    (init_hydrate c).inserts = c.length - (init_hydrate c).lis.length ∧
    (c.Pairwise (· < ·) → (init_hydrate c).inserts = 0 ∧ (init_hydrate c).dom = c) ∧
    ((init_hydrate [2, 0, 1, 4, 3]).inserts = 2 ∧
      (init_hydrate [2, 0, 1, 4, 3]).dom = [0, 1, 2, 3, 4]) := by
  obtain ⟨hdp, hdperm, hlsub, hlsort, hmax, hdisj, hins⟩ := init_hydrate_spec c hnd
  refine ⟨⟨hdp, hdperm⟩, ⟨hlsub, hlsort, hmax, hdisj⟩, hins, ?_, ?_⟩
  · intro hcs
    have h1 : c.length ≤ (init_hydrate c).lis.length := hmax c (List.Sublist.refl c) hcs
    have h2 : (init_hydrate c).lis.length ≤ c.length := hlsub.length_le
    refine ⟨by rw [hins]; omega, ?_⟩
    exact List.eq_of_perm_of_sorted hdperm hdp hcs
  · obtain ⟨hdp5, hdperm5, hlsub5, hlsort5, hmax5, hdisj5, hins5⟩ :=
      init_hydrate_spec [2, 0, 1, 4, 3] (by decide)
    have hup : (init_hydrate [2, 0, 1, 4, 3]).lis.length ≤ 3 := by
      have hb : ∀ l ∈ ([2, 0, 1, 4, 3] : List Nat).sublists,
          l.Pairwise (· < ·) → l.length ≤ 3 := by decide
      exact hb _ (List.mem_sublists.mpr hlsub5) hlsort5
    have hlo : 3 ≤ (init_hydrate [2, 0, 1, 4, 3]).lis.length :=
      hmax5 [0, 1, 4] (by decide) (by decide)
    refine ⟨by rw [hins5]; simp only [List.length_cons, List.length_nil]; omega, ?_⟩
    have hp : (init_hydrate [2, 0, 1, 4, 3]).dom.Perm [0, 1, 2, 3, 4] :=
      hdperm5.trans (by decide)
    exact List.eq_of_perm_of_sorted hp hdp5 (by decide)

/-- Witness for C2: the theorem applied at the concrete claim-order list
`[2,0,1,4,3]`, whose stamps are pairwise distinct. -/
theorem C2_init_hydrate_lis_witness :
    ([2, 0, 1, 4, 3] : List Nat).Nodup ∧
    (init_hydrate [2, 0, 1, 4, 3]).inserts = 2 ∧
    (init_hydrate [2, 0, 1, 4, 3]).dom = [0, 1, 2, 3, 4] :=
  ⟨by decide, (C2_init_hydrate_lis [2, 0, 1, 4, 3] (by decide)).2.2.2.2⟩

end Bundle










